import Mathlib

/-!
Verification development for the rodbot agent core: a shallow embedding of
the experience/memory store (`rodbot/agent/memory.py`) and of the agent
control loop (`rodbot/agent/loop.py`), together with proofs of the stated
behavioural properties.

Modelling conventions:
* Python strings are Lean `String`s; the string primitives used by the code
  (`split`, `startswith`, `in`, `strip`, `lower`, slicing, `join`) are
  translated below as executable functions over the underlying `List Char`.
* The LanceDB table is a `List Row`; `search().where(...).limit(n).to_list()`
  is translated as `filter` followed by `take n`, and `delete("key = k")`
  as removal of every row whose key is `k`.
* Wall-clock time, ISO-timestamp parsing and the floating point
  `exp (-0.02 * days)` decay are taken as parameters (`now`, `parseTs`,
  `decayFn`): the properties proved here hold for every choice of these,
  and rational arithmetic replaces Python floats everywhere else.
* Python `int` is `ℤ`; `int(s)` parsing accepts an optional sign followed
  by decimal digits (the underscore-separator extension of Python's `int`
  is never produced by this code and is not modelled).
-/

/-- Does the second character list start with the first one?
Translation of Python `str.startswith` on the underlying characters. -/
def seqStarts : List Char → List Char → Bool
  | [], _ => true
  | _ :: _, [] => false
  | a :: as, b :: bs => a == b && seqStarts as bs

/-- Does the first character list occur contiguously inside the second?
Translation of the Python substring test `pat in s`. -/
def seqIn : List Char → List Char → Bool
  | pat, [] => seqStarts pat []
  | pat, c :: t => seqStarts pat (c :: t) || seqIn pat t

/-- Split a character list at every character satisfying `p`, keeping empty
parts: the semantics of Python `str.split(sep)` for a one-character `sep`. -/
def splitPred (p : Char → Bool) : List Char → List (List Char)
  | [] => [[]]
  | c :: cs =>
    if p c then [] :: splitPred p cs
    else
      match splitPred p cs with
      | [] => [[c]]
      | q :: qs => (c :: q) :: qs

/-- Python `s.startswith(pre)`. -/
def pyStartsWith (s pre : String) : Bool := seqStarts pre.data s.data

/-- Python `pat in s` (substring containment). -/
def pyContains (s pat : String) : Bool := seqIn pat.data s.data

/-- Python `s.split("\n")`. -/
def pyLines (s : String) : List String := (splitPred (· == '\n') s.data).map String.mk

/-- Python `sep.join(parts)`. -/
def joinSep (sep : String) : List String → String
  | [] => ""
  | [x] => x
  | x :: y :: xs => x ++ sep ++ joinSep sep (y :: xs)

/-- Python `s[n:]` (character based). -/
def pyDrop (s : String) (n : ℕ) : String := String.mk (s.data.drop n)

/-- Python `s[:n]` (character based, `n ≥ 0`). -/
def pyTake (s : String) (n : ℕ) : String := String.mk (s.data.take n)

/-- Python `s.strip()`. -/
def pyStrip (s : String) : String :=
  String.mk (((s.data.dropWhile Char.isWhitespace).reverse.dropWhile Char.isWhitespace).reverse)

/-- Python `s.lower()`, restricted to the ASCII case mapping. -/
def pyLower (s : String) : String := String.mk (s.data.map Char.toLower)

/-- Python `s.split()`: split on whitespace runs, dropping empty parts. -/
def pyWords (s : String) : List String :=
  ((splitPred Char.isWhitespace s.data).filter (· ≠ [])).map String.mk

/-- Keyword extraction used throughout `memory.py`:
`{w.lower() for w in s.split() if len(w) >= 2}`.  The set is modelled as a
duplicate-free list. -/
def pyKeywords (s : String) : List String :=
  (((pyWords s).filter (fun w => 2 ≤ w.data.length)).map pyLower).dedup

/-- Decode a nonempty all-digit character list as a natural number. -/
def decodeDigits (l : List Char) : Option ℕ :=
  if l = [] then none
  else if l.all Char.isDigit then some (l.foldl (fun a c => 10 * a + (c.toNat - 48)) 0)
  else none

/-- Python `int(s)` on an already-stripped string: optional sign, digits. -/
def parsePyInt (s : String) : Option ℤ :=
  match s.data with
  | [] => none
  | c :: rest =>
    if c = '-' then (decodeDigits rest).map (fun n => -(n : ℤ))
    else if c = '+' then (decodeDigits rest).map (fun n => (n : ℤ))
    else (decodeDigits (c :: rest)).map (fun n => (n : ℤ))

/-- Big-endian decimal digit characters of `n`; the first argument is
recursion fuel (any fuel at least `n` yields the digits of `n`). -/
def natDigitsAux : ℕ → ℕ → List Char
  | _, 0 => []
  | 0, _ + 1 => []
  | fuel + 1, m + 1 => natDigitsAux fuel ((m + 1) / 10) ++ [Nat.digitChar ((m + 1) % 10)]

/-- Python `str(n)` for a natural number (decimal rendering). -/
def pyStrNat (n : ℕ) : String :=
  if n = 0 then "0" else String.mk (natDigitsAux n n)

/-- Python `str(i)` for an integer. -/
def pyStrInt (i : ℤ) : String :=
  if i < 0 then "-" ++ pyStrNat i.natAbs else pyStrNat i.toNat

/-- Python `l[-n:]`: the last `n` elements (all of them when `n ≥ len`). -/
def lastN {α : Type} (n : ℕ) (l : List α) : List α := l.drop (l.length - n)

/-- A row of the LanceDB `memory` table (`_SAMPLE` schema in `memory.py`). -/
structure Row where
  key : String
  content : String
  rtype : String
  updatedAt : String
  deriving DecidableEq, Repr

/-- `MemoryStore._parse_int_field`, working on the split lines: find the
first line starting with `"[field]"` whose remainder parses as an int;
unparseable matching lines are skipped (`except ValueError: pass`). -/
def parseIntLines (field : String) (dflt : ℤ) : List String → ℤ
  | [] => dflt
  | l :: ls =>
    if pyStartsWith l ("[" ++ field ++ "]") then
      match parsePyInt (pyStrip (pyDrop l (field.data.length + 2))) with
      | some n => n
      | none => parseIntLines field dflt ls
    else parseIntLines field dflt ls

/-- `MemoryStore._parse_int_field(content, field, default)`. -/
def parseIntField (content field : String) (dflt : ℤ) : ℤ :=
  parseIntLines field dflt (pyLines content)

/-- `MemoryStore._parse_quality`. -/
def parseQuality (content : String) : ℤ := parseIntField content "Quality" 3

/-- `MemoryStore._parse_field`, working on the split lines. -/
def parseFieldLines (field : String) : List String → String
  | [] => ""
  | l :: ls =>
    if pyStartsWith l ("[" ++ field ++ "]") then pyStrip (pyDrop l (field.data.length + 2))
    else parseFieldLines field ls

/-- `MemoryStore._parse_field(content, field)`. -/
def parseField (content field : String) : String := parseFieldLines field (pyLines content)

/-- `MemoryStore._set_field` on the split lines: replace the first line
starting with `"[field]"`, appending a new line when none matches. -/
def setFieldLines (field value : String) : List String → List String
  | [] => ["[" ++ field ++ "] " ++ value]
  | l :: ls =>
    if pyStartsWith l ("[" ++ field ++ "]") then ("[" ++ field ++ "] " ++ value) :: ls
    else l :: setFieldLines field value ls

/-- `MemoryStore._set_field(content, field, value)`. -/
def setField (content field value : String) : String :=
  joinSep "\n" (setFieldLines field value (pyLines content))

/-- `MemoryStore._confidence`. -/
def confidence (content : String) : ℚ :=
  let uses := parseIntField content "Uses" 0
  let successes := parseIntField content "Successes" 0
  if uses < 2 then 1 else (successes : ℚ) / (uses : ℚ)

/-- `MemoryStore._days_since(ts, now)`.  `parseTs` models
`datetime.fromisoformat` (returning the timestamp in days), `now` the
current time in days; a missing or unparseable timestamp yields `30.0`. -/
def daysSince (parseTs : String → Option ℚ) (ts : String) (now : ℚ) : ℚ :=
  if ts = "" then 30
  else
    match parseTs ts with
    | none => 30
    | some t => max 0 (now - t)

/-- `MemoryStore.append_experience`: the content string built by the method.
`ts` models `datetime.now().isoformat()`. -/
def experienceContent (task outcome lessons : String) (quality : ℤ)
    (category keywords reasoningTrace : String) : String :=
  let content := "[Task] " ++ task ++ "\n[Outcome] " ++ outcome ++ "\n[Category] " ++ category
    ++ "\n[Quality] " ++ pyStrInt quality ++ "\n[Uses] 0\n[Successes] 0\n[Lessons] " ++ lessons
  let content := if keywords ≠ "" then content ++ "\n[Keywords] " ++ keywords else content
  if reasoningTrace ≠ "" then content ++ "\n[Trace] " ++ reasoningTrace else content

/-- `MemoryStore.append_experience` acting on the table. -/
def appendExperience (ts : String) (table : List Row) (task outcome lessons : String)
    (quality : ℤ) (category keywords reasoningTrace : String) : List Row :=
  table ++ [⟨"experience_" ++ ts,
            experienceContent task outcome lessons quality category keywords reasoningTrace,
            "experience", ts⟩]

/-- `MemoryStore._match_experience_rows(task_desc, threshold)`: the active
experience rows (first 100 fetched) whose keyword hit count reaches
`len(keywords) * threshold`, paired with their content. -/
def matchExperienceRows (table : List Row) (taskDesc : String) (threshold : ℚ) :
    List (Row × String) :=
  let rows := (table.filter (fun r => r.rtype == "experience")).take 100
  let keywords := pyKeywords taskDesc
  if keywords = [] then []
  else
    rows.filterMap (fun r =>
      if pyContains r.content "[Deprecated]" then none
      else
        let hits := keywords.countP (fun kw => pyContains (pyLower r.content) kw)
        if (keywords.length : ℚ) * threshold ≤ (hits : ℚ) then some (r, r.content) else none)

/-- `MemoryStore._update_experience_row`: delete the row's key and re-add it
with new content, keeping key and update timestamp (no-op on a falsy key). -/
def updateExperienceRow (table : List Row) (r : Row) (newContent : String) : List Row :=
  if r.key ≠ "" then
    (table.filter (fun x => x.key ≠ r.key)) ++ [⟨r.key, newContent, "experience", r.updatedAt⟩]
  else table

/-- The fold shared by `record_reuse` and `deprecate_similar`: apply
`_update_experience_row` to each matched row, the new content being a
function of the snapshot content. -/
def applyUpdates (g : String → String) (table : List Row) : List (Row × String) → List Row
  | [] => table
  | (r, c) :: ms => applyUpdates g (updateExperienceRow table r (g c)) ms

/-- The content rewrite performed by one `record_reuse` iteration. -/
def reuseContent (success : Bool) (content : String) : String :=
  let uses := parseIntField content "Uses" 0 + 1
  let successes := parseIntField content "Successes" 0 + (if success then 1 else 0)
  let updated := setField content "Uses" (pyStrInt uses)
  let updated := setField updated "Successes" (pyStrInt successes)
  if 3 ≤ uses then
    let conf : ℚ := (successes : ℚ) / (uses : ℚ)
    let currentQ := parseQuality updated
    let newQ : ℤ :=
      if (4 : ℚ) / 5 ≤ conf then min 5 (currentQ + 1)
      else if conf < (2 : ℚ) / 5 then max 1 (currentQ - 1)
      else currentQ
    setField updated "Quality" (pyStrInt newQ)
  else updated

/-- `MemoryStore.record_reuse(task_desc, success)`, returning the updated
table and the count of matched rows. -/
def recordReuse (table : List Row) (taskDesc : String) (success : Bool) : List Row × ℕ :=
  let ms := matchExperienceRows table taskDesc (2 / 5)
  (applyUpdates (reuseContent success) table ms, ms.length)

/-- `MemoryStore.deprecate_similar(task_desc)`. -/
def deprecateSimilar (table : List Row) (taskDesc : String) : List Row × ℕ :=
  let ms := matchExperienceRows table taskDesc (1 / 2)
  (applyUpdates (fun c => "[Deprecated] " ++ c) table ms, ms.length)

/-- The removal condition of `MemoryStore.cleanup_stale`. -/
def staleRemove (parseTs : String → Option ℚ) (now maxDeprecatedDays maxLowQualityDays : ℚ)
    (r : Row) : Bool :=
  let content := r.content
  let daysOld := daysSince parseTs r.updatedAt now
  (pyContains content "[Deprecated]" && decide (maxDeprecatedDays < daysOld))
    || (decide (parseQuality content ≤ 1) && decide (maxLowQualityDays < daysOld))

/-- `MemoryStore.cleanup_stale`, returning the table and the removed count. -/
def cleanupStale (parseTs : String → Option ℚ) (now : ℚ)
    (maxDeprecatedDays maxLowQualityDays : ℚ) (table : List Row) : List Row × ℕ :=
  let rows := (table.filter (fun r => r.rtype == "experience")).take 500
  rows.foldl
    (fun acc r =>
      if staleRemove parseTs now maxDeprecatedDays maxLowQualityDays r ∧ r.key ≠ "" then
        ((acc.1.filter (fun x => x.key ≠ r.key)), acc.2 + 1)
      else acc)
    (table, 0)

/-- The category extraction inside `get_merge_candidates`: first
`[Category]` line, empty value falling back to `"general"`. -/
def catOfLines : List String → String
  | [] => "general"
  | l :: ls =>
    if pyStartsWith l "[Category]" then
      let v := pyStrip (pyDrop l 10)
      if v = "" then "general" else v
    else catOfLines ls

/-- Category of an experience content string. -/
def catOf (content : String) : String := catOfLines (pyLines content)

/-- `groups.setdefault(cat, []).append(content)` on an insertion-ordered
dict, modelled as an association list. -/
def groupAdd (cat content : String) : List (String × List String) → List (String × List String)
  | [] => [(cat, [content])]
  | (c, g) :: rest =>
    if c = cat then (c, g ++ [content]) :: rest else (c, g) :: groupAdd cat content rest

/-- `MemoryStore.get_merge_candidates(min_count)`. -/
def getMergeCandidates (minCount : ℕ) (table : List Row) : List (List String) :=
  let rows := (table.filter (fun r => r.rtype == "experience")).take 200
  let active := rows.filter (fun r => ¬ pyContains r.content "[Deprecated]")
  if active.length < minCount then []
  else
    let groups := active.foldl (fun g r => groupAdd (catOf r.content) r.content g) []
    (groups.map Prod.snd).filter (fun entries => 3 ≤ entries.length)

/-- The `content → key` dict built by `replace_merged` (later rows win). -/
def contentToKey (rows : List Row) (content : String) : Option String :=
  ((rows.filter (fun r => r.content == content)).map (fun r => r.key)).getLast?

/-- `MemoryStore.replace_merged(old_entries, merged_content)`; `ts` models
the fresh timestamp of the inserted merged record. -/
def replaceMerged (ts : String) (table : List Row) (oldEntries : List String)
    (mergedContent : String) : List Row :=
  let rows := (table.filter (fun r => r.rtype == "experience")).take 200
  let afterDeletes := oldEntries.foldl
    (fun tbl entry =>
      match contentToKey rows entry with
      | some k => if k ≠ "" then tbl.filter (fun x => x.key ≠ k) else tbl
      | none => tbl)
    table
  afterDeletes ++ [⟨"experience_merged_" ++ ts, mergedContent, "experience", ts⟩]

/-- Stable descending sort by score: `list.sort(key=lambda x: x[0],
reverse=True)`. -/
def sortDesc (l : List (ℚ × String)) : List (ℚ × String) :=
  l.mergeSort (fun a b => decide (b.1 ≤ a.1))

/-- The candidate retrieval of `search_experience` when no embedding backend
is configured: keyword-overlap filter over the first 100 experience rows. -/
def fallbackExperienceCandidates (table : List Row) (query : String) : List Row :=
  let rows := (table.filter (fun r => r.rtype == "experience")).take 100
  let keywords := pyKeywords query
  if keywords = [] then rows
  else rows.filter (fun r => 0 < keywords.countP (fun kw => pyContains (pyLower r.content) kw))

/-- The score of a candidate in `search_experience`:
`quality * exp(-0.02 * days_old) * confidence`, the exponential decay being
the parameter `decayFn`. -/
def scoreOf (decayFn : ℚ → ℚ) (parseTs : String → Option ℚ) (now : ℚ) (r : Row) : ℚ :=
  (parseQuality r.content : ℚ) * decayFn (daysSince parseTs r.updatedAt now)
    * confidence r.content

/-- The scoring pass of `search_experience`: skip deprecated candidates and
partition the rest into positive and warning buckets, in candidate order. -/
def collectScored (decayFn : ℚ → ℚ) (parseTs : String → Option ℚ) (now : ℚ) :
    List Row → List (ℚ × String) × List (ℚ × String)
  | [] => ([], [])
  | r :: rs =>
    let rest := collectScored decayFn parseTs now rs
    if pyContains r.content "[Deprecated]" then rest
    else
      let score := scoreOf decayFn parseTs now r
      if parseField r.content "Outcome" = "failed" then (rest.1, (score, r.content) :: rest.2)
      else ((score, r.content) :: rest.1, rest.2)

/-- The conflict banner prefixed to a positive entry whose category already
contributed a different outcome. -/
def conflictNote (cat prevOutcome outcome content : String) : String :=
  "⚡ CONFLICTING experience (category '" ++ cat ++ "' has both " ++ prevOutcome ++ " and "
    ++ outcome ++ "):\n" ++ content

/-- The warning banner prefixed to the single appended warning entry. -/
def warningNote (content : String) : String :=
  "⚠️ WARNING from past failure:\n" ++ content

/-- The positive-entry selection loop of `search_experience`: take sorted
positive entries while fewer than `limit - 1` results are collected,
prefixing a conflict banner when the category's first-seen outcome differs
(`seen` models the insertion-ordered `seen_categories` dict). -/
def positiveLoop (limit : ℕ) : List (ℚ × String) → List String → List (String × String) →
    List String
  | [], results, _ => results
  | (_, content) :: rest, results, seen =>
    if limit - 1 ≤ results.length then results
    else
      let cat := if parseField content "Category" = "" then "general"
                 else parseField content "Category"
      let outcome := parseField content "Outcome"
      match seen.lookup cat with
      | some prevOutcome =>
        if prevOutcome ≠ "" ∧ prevOutcome ≠ outcome then
          positiveLoop limit rest (results ++ [conflictNote cat prevOutcome outcome content]) seen
        else positiveLoop limit rest (results ++ [content]) seen
      | none => positiveLoop limit rest (results ++ [content]) (seen ++ [(cat, outcome)])

/-- `MemoryStore.search_experience(query, limit)` with no embedding backend
configured (the pure fallback path of the code). -/
def searchExperience (decayFn : ℚ → ℚ) (parseTs : String → Option ℚ) (now : ℚ)
    (table : List Row) (query : String) (limit : ℕ) : List String :=
  let candidates := fallbackExperienceCandidates table query
  let buckets := collectScored decayFn parseTs now candidates
  let warningsSorted := sortDesc buckets.2
  let results := positiveLoop limit (sortDesc buckets.1) [] []
  let results :=
    match warningsSorted with
    | [] => results
    | w :: _ => results ++ [warningNote w.2]
  results.take limit

/-- The `_ERROR_KEYWORDS` tuple of `loop.py`. -/
def errorKeywords : List String :=
  ["error:", "traceback", "failed", "exception", "permission denied"]

/-- One executed tool call of a provider round: the tool name, the
stringified first argument (`str(next(iter(arguments.values()), ""))`), the
JSON-encoded argument string, and the textual result. -/
structure ToolCallModel where
  name : String
  firstArg : String
  argsStr : String
  result : String
  deriving DecidableEq, Repr

/-- Error classification of a tool result: its lowercased text contains one
of the error keywords (tool results are always strings in this model). -/
def hasErrorResult (result : String) : Bool :=
  errorKeywords.any (fun kw => pyContains (pyLower result) kw)

/-- The mutable per-turn state of `_run_agent_loop` that the tool-execution
path updates.  The message list, progress callbacks and the LLM-driven
state-compression and sufficiency injections are omitted: they influence
only the (already abstract) provider responses, not the fields below. -/
structure LoopState where
  consecutiveErrors : ℕ
  totalErrors : ℕ
  failedDirections : List String
  toolTrace : List String
  toolsUsed : List String
  deriving Repr

/-- The state at the top of `_run_agent_loop`. -/
def initialLoopState : LoopState := ⟨0, 0, [], [], []⟩

/-- The tool-trace entry recorded for one tool call. -/
def traceEntry (tc : ToolCallModel) (hasError : Bool) : String :=
  tc.name ++ "(" ++ pyTake tc.argsStr 60 ++ ") → " ++ (if hasError then "ERROR" else "ok")
    ++ ": " ++ pyTake tc.result 100

/-- Processing of a single tool call inside the round loop of
`_run_agent_loop`: trace append, error counters, failed directions. -/
def processToolCall (st : LoopState) (tc : ToolCallModel) : LoopState :=
  let hasError := hasErrorResult tc.result
  { consecutiveErrors := if hasError then st.consecutiveErrors + 1 else 0
    totalErrors := st.totalErrors + (if hasError then 1 else 0)
    failedDirections :=
      if hasError then st.failedDirections ++ [tc.name ++ "(" ++ pyTake tc.firstArg 80 ++ ")"]
      else st.failedDirections
    toolTrace := st.toolTrace ++ [traceEntry tc hasError]
    toolsUsed := st.toolsUsed ++ [tc.name] }

/-- The escalated corrective instruction injected after 3+ consecutive
errors. -/
def escalatedText (failedDirections : List String) : String :=
  "Multiple tool errors occurred. STOP retrying the same approach.\nFailed directions so far: "
    ++ joinSep "; " (lastN 5 failedDirections) ++ "\nTry a completely different strategy."

/-- The milder corrective instruction injected after 1–2 consecutive
errors. -/
def mildText (failedDirections : List String) : String :=
  "The tool returned an error. Analyze what went wrong and try a different approach."
    ++ (if 1 < failedDirections.length then
          "\nAlready tried and failed: " ++ joinSep "; " (lastN 3 failedDirections)
        else "")

/-- The `error_feedback` computed at the end of a provider round. -/
def roundFeedback (consecutiveErrors : ℕ) (failedDirections : List String) : Option String :=
  if 3 ≤ consecutiveErrors then some (escalatedText failedDirections)
  else if 0 < consecutiveErrors then some (mildText failedDirections)
  else none

/-- One provider round carrying tool calls: execute every call in order,
then compute the corrective feedback (injected as a user message). -/
def processRound (st : LoopState) (calls : List ToolCallModel) : LoopState × Option String :=
  let st2 := calls.foldl processToolCall st
  (st2, roundFeedback st2.consecutiveErrors st2.failedDirections)

/-- The loop state after a sequence of tool-carrying provider rounds. -/
def loopStateAfter (rounds : List (List ToolCallModel)) : LoopState :=
  rounds.foldl (fun s r => (processRound s r).1) initialLoopState

/-- A provider response as seen by `_run_agent_loop`: optional content plus
a (possibly empty) tool-call list; `has_tool_calls` is nonemptiness. -/
structure LLMResponseModel where
  content : Option String
  toolCalls : List ToolCallModel
  deriving Repr

/-- The outcome of `_run_agent_loop` relevant here: the final content, the
number of iterations performed (provider calls) and the final state. -/
structure LoopResult where
  finalContent : Option String
  iterations : ℕ
  state : LoopState
  deriving Repr

/-- The iteration structure of `_run_agent_loop`: `fuel` is the remaining
iteration budget, `iter` the number of iterations already performed, and
`responses i` the provider response of the `i`-th call.  `stripThink`
models `_strip_think`. -/
def runLoopAux (stripThink : Option String → Option String)
    (responses : ℕ → LLMResponseModel) : ℕ → ℕ → LoopState → LoopResult
  | 0, iter, st => ⟨none, iter, st⟩
  | fuel + 1, iter, st =>
    let response := responses iter
    if response.toolCalls.length > 0 then
      let step := processRound st response.toolCalls
      runLoopAux stripThink responses fuel (iter + 1) step.1
    else ⟨stripThink response.content, iter + 1, st⟩

/-- `_run_agent_loop` with iteration budget `maxIterations`. -/
def runLoop (stripThink : Option String → Option String)
    (responses : ℕ → LLMResponseModel) (maxIterations : ℕ) : LoopResult :=
  runLoopAux stripThink responses maxIterations 0 initialLoopState

theorem strData (a b : String) : (a ++ b).data = a.data ++ b.data := by
  cases a; cases b; rfl

theorem strMkData (s : String) : String.mk s.data = s := rfl

theorem seqStarts_iff (pre l : List Char) : seqStarts pre l = true ↔ pre <+: l := by
  induction pre generalizing l with
  | nil => simp [seqStarts]
  | cons a as ih =>
    cases l with
    | nil => simp [seqStarts]
    | cons b bs => simp [seqStarts, List.cons_prefix_cons, ih, And.comm]

theorem seqIn_iff (pat l : List Char) : seqIn pat l = true ↔ pat <:+: l := by
  induction l with
  | nil =>
    cases pat with
    | nil => simp [seqIn, seqStarts]
    | cons c t => simp [seqIn, seqStarts]
  | cons c t ih =>
    rw [seqIn]
    simp [seqStarts_iff, ih, List.infix_cons_iff]

theorem splitPred_ne_nil (p : Char → Bool) (l : List Char) : splitPred p l ≠ [] := by
  cases l with
  | nil => simp [splitPred]
  | cons c cs =>
    rw [splitPred]
    split
    · simp
    · split
      · simp
      · simp

theorem splitPred_parts (p : Char → Bool) (l : List Char) :
    ∀ part ∈ splitPred p l, ∀ c ∈ part, p c = false := by
  induction l with
  | nil => simp [splitPred]
  | cons c cs ih =>
    rw [splitPred]
    split
    · intro part hp
      rcases List.mem_cons.mp hp with h | h
      · simp [h]
      · exact ih part h
    · rename_i hpc
      cases hq : splitPred p cs with
      | nil => exact absurd hq (splitPred_ne_nil p cs)
      | cons q qs =>
        intro part hp
        rcases List.mem_cons.mp hp with h | h
        · subst h
          intro d hd
          rcases List.mem_cons.mp hd with h2 | h2
          · subst h2; exact Bool.of_not_eq_true hpc
          · exact ih q (by simp [hq]) d h2
        · exact ih part (by simp [hq, h])

theorem splitPred_no_sep (p : Char → Bool) (a : List Char) (h : ∀ c ∈ a, p c = false) :
    splitPred p a = [a] := by
  induction a with
  | nil => rfl
  | cons c cs ih =>
    rw [splitPred]
    rw [h c (by simp)]
    simp only [Bool.false_eq_true, if_false]
    rw [ih (fun d hd => h d (by simp [hd]))]

theorem splitPred_glue (p : Char → Bool) (a s b) (ha : ∀ c ∈ a, p c = false) (hs : p s = true) :
    splitPred p (a ++ s :: b) = a :: splitPred p b := by
  induction a with
  | nil => simp [splitPred, hs]
  | cons c cs ih =>
    rw [List.cons_append, splitPred]
    rw [ha c (by simp)]
    simp only [Bool.false_eq_true, if_false]
    rw [ih (fun d hd => ha d (by simp [hd]))]

theorem pyLines_parts (s : String) : ∀ l ∈ pyLines s, '\n' ∉ l.data := by
  intro l hl
  rcases List.mem_map.mp hl with ⟨part, hpart, rfl⟩
  intro hmem
  have := splitPred_parts (· == '\n') s.data part hpart '\n' hmem
  simp at this

theorem pyLines_glue (a b : String) (ha : '\n' ∉ a.data) :
    pyLines (a ++ "\n" ++ b) = a :: pyLines b := by
  unfold pyLines
  have hnl : ("\n" : String).data = ['\n'] := rfl
  have hdata : (a ++ "\n" ++ b).data = a.data ++ '\n' :: b.data := by
    rw [strData, strData, hnl, List.append_assoc]
    rfl
  rw [hdata, splitPred_glue (· == '\n') a.data '\n' b.data
      (fun c hc => by
        simp only [beq_eq_false_iff_ne, ne_eq]
        intro h
        exact ha (h ▸ hc))
      (by simp)]
  simp [strMkData]

theorem digitChar_facts (d : ℕ) (h : d < 10) :
    (Nat.digitChar d).isDigit = true ∧ (Nat.digitChar d).toNat - 48 = d ∧
      (Nat.digitChar d).isWhitespace = false ∧ Nat.digitChar d ≠ '\n' ∧
      Nat.digitChar d ≠ '-' ∧ Nat.digitChar d ≠ '+' := by
  interval_cases d <;>
    exact ⟨by decide, by decide, by decide, by decide, by decide, by decide⟩

theorem decode_foldr (L : List ℕ) (h : ∀ d ∈ L, d < 10) :
    (L.map Nat.digitChar).foldr (fun c a => 10 * a + (c.toNat - 48)) 0 = Nat.ofDigits 10 L := by
  induction L with
  | nil => simp [Nat.ofDigits_nil]
  | cons d L ih =>
    rw [List.map_cons, List.foldr_cons, ih (fun e he => h e (by simp [he])),
      Nat.ofDigits_cons, (digitChar_facts d (h d (by simp))).2.1]
    ring

theorem natDigitsAux_eq (fuel : ℕ) :
    ∀ n : ℕ, n ≤ fuel → natDigitsAux fuel n = ((Nat.digits 10 n).map Nat.digitChar).reverse := by
  induction fuel with
  | zero =>
    intro n hn
    have : n = 0 := by omega
    subst this
    simp [natDigitsAux]
  | succ fuel ih =>
    intro n hn
    cases n with
    | zero => simp [natDigitsAux]
    | succ m =>
      rw [natDigitsAux, ih ((m + 1) / 10)
        (by
          have := Nat.div_lt_self (Nat.succ_pos m) (by norm_num : 1 < 10)
          omega)]
      rw [Nat.digits_def' (by norm_num : 1 < 10) (Nat.succ_pos m), List.map_cons,
        List.reverse_cons]

theorem pyStrNat_digits (n : ℕ) (h : n ≠ 0) :
    pyStrNat n = String.mk (((Nat.digits 10 n).map Nat.digitChar).reverse) := by
  rw [pyStrNat, if_neg h, natDigitsAux_eq n n (le_refl n)]

theorem pyStrNat_ne_nil (n : ℕ) : (pyStrNat n).data ≠ [] := by
  by_cases h : n = 0
  · subst h; decide
  · rw [pyStrNat_digits n h]
    simp [Nat.digits_ne_nil_iff_ne_zero.mpr h]

theorem decode_pyStrNat (n : ℕ) : decodeDigits (pyStrNat n).data = some n := by
  by_cases h : n = 0
  · subst h; decide
  · rw [pyStrNat_digits n h]
    have hlt : ∀ d ∈ Nat.digits 10 n, d < 10 :=
      fun d hd2 => Nat.digits_lt_base (by norm_num) hd2
    have hne : Nat.digits 10 n ≠ [] := Nat.digits_ne_nil_iff_ne_zero.mpr h
    have h1 : (((Nat.digits 10 n).map Nat.digitChar).reverse : List Char) ≠ [] := by
      simp [hne]
    have h2 : (((Nat.digits 10 n).map Nat.digitChar).reverse).all Char.isDigit = true := by
      rw [List.all_eq_true]
      intro c hc
      rcases List.mem_map.mp (List.mem_reverse.mp hc) with ⟨d, hdL, rfl⟩
      exact (digitChar_facts d (hlt d hdL)).1
    show decodeDigits (((Nat.digits 10 n).map Nat.digitChar).reverse) = some n
    rw [decodeDigits, if_neg h1, if_pos h2, List.foldl_reverse]
    rw [show (fun (x : Char) (y : ℕ) => 10 * y + (x.toNat - 48))
        = (fun c a => 10 * a + (c.toNat - 48)) from rfl]
    rw [decode_foldr (Nat.digits 10 n) hlt, Nat.ofDigits_digits]

theorem pyStrNat_chars (n : ℕ) :
    ∀ c ∈ (pyStrNat n).data,
      c.isWhitespace = false ∧ c ≠ '\n' ∧ c ≠ '-' ∧ c ≠ '+' := by
  by_cases h : n = 0
  · subst h
    intro c hc
    have : c = '0' := by
      have : (pyStrNat 0).data = ['0'] := by decide
      rw [this] at hc
      simpa using hc
    subst this
    exact ⟨by decide, by decide, by decide, by decide⟩
  · rw [pyStrNat_digits n h]
    intro c hc
    rcases List.mem_map.mp (List.mem_reverse.mp hc) with ⟨d, hdL, rfl⟩
    have := digitChar_facts d (Nat.digits_lt_base (by norm_num) hdL)
    exact ⟨this.2.2.1, this.2.2.2.1, this.2.2.2.2.1, this.2.2.2.2.2⟩

theorem parse_pyStrNat (n : ℕ) : parsePyInt (pyStrNat n) = some (n : ℤ) := by
  unfold parsePyInt
  split
  · next heq => exact absurd heq (pyStrNat_ne_nil n)
  · next c rest heq =>
    have hc := pyStrNat_chars n c (by rw [heq]; simp)
    rw [if_neg hc.2.2.1, if_neg hc.2.2.2, ← heq, decode_pyStrNat]
    rfl

theorem parse_pyStrInt (i : ℤ) : parsePyInt (pyStrInt i) = some i := by
  rw [pyStrInt]
  by_cases h : i < 0
  · rw [if_pos h]
    have hdata : (("-" : String) ++ pyStrNat i.natAbs).data = '-' :: (pyStrNat i.natAbs).data := by
      rw [strData]; rfl
    unfold parsePyInt
    split
    · next heq =>
      rw [hdata] at heq
      exact absurd heq (by simp)
    · next c rest heq =>
      rw [hdata] at heq
      have hchar : c = '-' := (List.cons.injEq _ _ _ _ ▸ heq).1.symm
      have hrest : rest = (pyStrNat i.natAbs).data := (List.cons.injEq _ _ _ _ ▸ heq).2.symm
      rw [if_pos hchar, hrest, decode_pyStrNat]
      show some (-(i.natAbs : ℤ)) = some i
      congr 1
      omega
  · rw [if_neg h, parse_pyStrNat]
    congr 1
    omega

theorem pyStrInt_chars (i : ℤ) :
    ∀ c ∈ (pyStrInt i).data, c.isWhitespace = false ∧ c ≠ '\n' := by
  rw [pyStrInt]
  by_cases h : i < 0
  · rw [if_pos h]
    have hdata : (("-" : String) ++ pyStrNat i.natAbs).data = '-' :: (pyStrNat i.natAbs).data := by
      rw [strData]; rfl
    rw [hdata]
    intro c hc
    rcases List.mem_cons.mp hc with rfl | hc2
    · exact ⟨by decide, by decide⟩
    · have := pyStrNat_chars i.natAbs c hc2
      exact ⟨this.1, this.2.1⟩
  · rw [if_neg h]
    intro c hc
    have := pyStrNat_chars i.toNat c hc
    exact ⟨this.1, this.2.1⟩

theorem marker_data (F : String) : ("[" ++ F ++ "]").data = '[' :: F.data ++ [']'] := by
  rw [strData, strData]; rfl

theorem fieldLine_data (F v : String) :
    ("[" ++ F ++ "] " ++ v).data = '[' :: F.data ++ ']' :: ' ' :: v.data := by
  rw [strData, strData, strData,
    show ("[" : String).data = ['['] from rfl, show ("] " : String).data = [']', ' '] from rfl]
  simp

theorem fieldLine_starts (F v : String) :
    pyStartsWith ("[" ++ F ++ "] " ++ v) ("[" ++ F ++ "]") = true := by
  rw [pyStartsWith, seqStarts_iff, marker_data, fieldLine_data]
  refine ⟨' ' :: v.data, ?_⟩
  simp

theorem fieldLine_value (F v : String) :
    pyStrip (pyDrop ("[" ++ F ++ "] " ++ v) (F.data.length + 2)) = pyStrip v := by
  have hdrop : ("[" ++ F ++ "] " ++ v).data.drop (F.data.length + 2) = ' ' :: v.data := by
    rw [fieldLine_data]
    rw [show ('[' :: F.data ++ ']' :: ' ' :: v.data)
        = '[' :: ((F.data ++ [']']) ++ ' ' :: v.data) by simp]
    rw [show F.data.length + 2 = ((F.data ++ [']']).length + 1) by simp]
    rw [List.drop_succ_cons, List.drop_left]
  rw [pyDrop, hdrop, pyStrip, pyStrip]
  rw [show (' ' :: v.data).dropWhile Char.isWhitespace = v.data.dropWhile Char.isWhitespace by
    rw [List.dropWhile_cons_of_pos (by decide)]]

theorem dropWhile_all_false (p : Char → Bool) (l : List Char) (h : ∀ c ∈ l, p c = false) :
    l.dropWhile p = l := by
  cases l with
  | nil => rfl
  | cons a t =>
    rw [List.dropWhile_cons, h a (by simp)]
    simp

theorem pyStrip_no_ws (v : String) (h : ∀ c ∈ v.data, c.isWhitespace = false) :
    pyStrip v = v := by
  rw [pyStrip, dropWhile_all_false _ _ h,
    dropWhile_all_false _ _ (fun c hc => h c (List.mem_reverse.mp hc)), List.reverse_reverse,
    strMkData]

theorem pyStrip_pyStrInt (i : ℤ) : pyStrip (pyStrInt i) = pyStrInt i :=
  pyStrip_no_ws _ (fun c hc => (pyStrInt_chars i c hc).1)

theorem pyStrInt_no_nl (i : ℤ) : '\n' ∉ (pyStrInt i).data := by
  intro h
  exact (pyStrInt_chars i '\n' h).2 rfl

theorem parseIntLines_fieldLine (F v : String) (d n : ℤ)
    (hv : parsePyInt (pyStrip v) = some n) (ls : List String) :
    parseIntLines F d (("[" ++ F ++ "] " ++ v) :: ls) = n := by
  rw [parseIntLines, if_pos (fieldLine_starts F v), fieldLine_value, hv]

theorem parseIntLines_set_same (F v : String) (d n : ℤ)
    (hv : parsePyInt (pyStrip v) = some n) (lines : List String) :
    parseIntLines F d (setFieldLines F v lines) = n := by
  induction lines with
  | nil => exact parseIntLines_fieldLine F v d n hv []
  | cons l ls ih =>
    rw [setFieldLines]
    by_cases hst : pyStartsWith l ("[" ++ F ++ "]") = true
    · rw [if_pos hst]
      exact parseIntLines_fieldLine F v d n hv ls
    · rw [if_neg hst, parseIntLines, if_neg hst]
      exact ih

theorem marker_excl (F G : String)
    (h1 : ¬ ("[" ++ F ++ "]").data <+: ("[" ++ G ++ "]").data)
    (h2 : ¬ ("[" ++ G ++ "]").data <+: ("[" ++ F ++ "]").data) :
    ∀ l : String, pyStartsWith l ("[" ++ G ++ "]") = true →
      pyStartsWith l ("[" ++ F ++ "]") = false := by
  intro l hG
  by_contra hF
  rw [Bool.not_eq_false] at hF
  have pG := (seqStarts_iff _ _).mp hG
  have pF := (seqStarts_iff _ _).mp hF
  rcases List.prefix_or_prefix_of_prefix pF pG with h | h
  · exact h1 h
  · exact h2 h

theorem parseIntLines_set_other (F G v : String) (d : ℤ)
    (hGF : ∀ l : String, pyStartsWith l ("[" ++ G ++ "]") = true →
      pyStartsWith l ("[" ++ F ++ "]") = false)
    (lines : List String) :
    parseIntLines F d (setFieldLines G v lines) = parseIntLines F d lines := by
  induction lines with
  | nil =>
    rw [setFieldLines]
    conv_lhs => rw [parseIntLines]
    rw [if_neg (by rw [hGF _ (fieldLine_starts G v)]; simp)]
  | cons l ls ih =>
    rw [setFieldLines]
    by_cases hG : pyStartsWith l ("[" ++ G ++ "]") = true
    · rw [if_pos hG]
      conv_lhs => rw [parseIntLines]
      rw [if_neg (by rw [hGF _ (fieldLine_starts G v)]; simp)]
      conv_rhs => rw [parseIntLines]
      rw [if_neg (by rw [hGF l hG]; simp)]
    · rw [if_neg hG]
      conv_lhs => rw [parseIntLines]
      conv_rhs => rw [parseIntLines]
      by_cases hF : pyStartsWith l ("[" ++ F ++ "]") = true
      · rw [if_pos hF, if_pos hF]
        cases hp : parsePyInt (pyStrip (pyDrop l (F.data.length + 2))) with
        | some n => simp [hp]
        | none => simp only [hp]; exact ih
      · rw [if_neg hF, if_neg hF]
        exact ih

theorem setFieldLines_ne_nil (F v : String) (lines : List String) :
    setFieldLines F v lines ≠ [] := by
  cases lines with
  | nil => simp [setFieldLines]
  | cons l ls =>
    rw [setFieldLines]
    split <;> simp

theorem setFieldLines_mems (F v : String) (lines : List String) :
    ∀ l ∈ setFieldLines F v lines, l ∈ lines ∨ l = "[" ++ F ++ "] " ++ v := by
  induction lines with
  | nil => simp [setFieldLines]
  | cons x xs ih =>
    rw [setFieldLines]
    split
    · intro l hl
      rcases List.mem_cons.mp hl with rfl | hl2
      · right; rfl
      · left; simp [hl2]
    · intro l hl
      rcases List.mem_cons.mp hl with rfl | hl2
      · left; simp
      · rcases ih l hl2 with h | h
        · left; simp [h]
        · right; exact h

theorem pyLines_joinSep (lines : List String) (hne : lines ≠ [])
    (h : ∀ l ∈ lines, '\n' ∉ l.data) : pyLines (joinSep "\n" lines) = lines := by
  induction lines with
  | nil => exact absurd rfl hne
  | cons x xs ih =>
    cases xs with
    | nil =>
      rw [joinSep]
      unfold pyLines
      rw [splitPred_no_sep _ _ (fun c hc => by
        simp only [beq_eq_false_iff_ne, ne_eq]
        intro hcn
        exact h x (by simp) (hcn ▸ hc))]
      simp [strMkData]
    | cons y ys =>
      rw [joinSep, pyLines_glue _ _ (h x (by simp)),
        ih (by simp) (fun l hl => h l (by simp [hl]))]

theorem fieldLine_no_nl (F v : String) (hF : '\n' ∉ F.data) (hv : '\n' ∉ v.data) :
    '\n' ∉ ("[" ++ F ++ "] " ++ v).data := by
  rw [fieldLine_data]
  intro hmem
  rcases List.mem_cons.mp hmem with h | h
  · exact absurd h (by decide)
  · rcases List.mem_append.mp h with h2 | h2
    · exact hF h2
    · rcases List.mem_cons.mp h2 with h3 | h3
      · exact absurd h3 (by decide)
      · rcases List.mem_cons.mp h3 with h4 | h4
        · exact absurd h4 (by decide)
        · exact hv h4

theorem setField_lines (c F v : String) (hF : '\n' ∉ F.data) (hv : '\n' ∉ v.data) :
    pyLines (setField c F v) = setFieldLines F v (pyLines c) := by
  rw [setField]
  apply pyLines_joinSep _ (setFieldLines_ne_nil F v _)
  intro l hl
  rcases setFieldLines_mems F v _ l hl with h | h
  · exact pyLines_parts c l h
  · rw [h]
    exact fieldLine_no_nl F v hF hv

theorem parse_setField_same (c F : String) (hF : '\n' ∉ F.data) (i d : ℤ) :
    parseIntField (setField c F (pyStrInt i)) F d = i := by
  rw [parseIntField, setField_lines c F _ hF (pyStrInt_no_nl i)]
  exact parseIntLines_set_same F _ d i (by rw [pyStrip_pyStrInt, parse_pyStrInt]) _

theorem parse_setField_other (c F G v : String) (hG : '\n' ∉ G.data) (hv : '\n' ∉ v.data)
    (hGF : ∀ l : String, pyStartsWith l ("[" ++ G ++ "]") = true →
      pyStartsWith l ("[" ++ F ++ "]") = false) (d : ℤ) :
    parseIntField (setField c G v) F d = parseIntField c F d := by
  rw [parseIntField, setField_lines c G v hG hv, parseIntLines_set_other F G v d hGF, parseIntField]

theorem exclQU : ∀ l : String, pyStartsWith l ("[" ++ "Uses" ++ "]") = true →
    pyStartsWith l ("[" ++ "Quality" ++ "]") = false :=
  marker_excl "Quality" "Uses" (by decide) (by decide)

theorem exclQS : ∀ l : String, pyStartsWith l ("[" ++ "Successes" ++ "]") = true →
    pyStartsWith l ("[" ++ "Quality" ++ "]") = false :=
  marker_excl "Quality" "Successes" (by decide) (by decide)

theorem exclUS : ∀ l : String, pyStartsWith l ("[" ++ "Successes" ++ "]") = true →
    pyStartsWith l ("[" ++ "Uses" ++ "]") = false :=
  marker_excl "Uses" "Successes" (by decide) (by decide)

theorem exclUQ : ∀ l : String, pyStartsWith l ("[" ++ "Quality" ++ "]") = true →
    pyStartsWith l ("[" ++ "Uses" ++ "]") = false :=
  marker_excl "Uses" "Quality" (by decide) (by decide)

theorem exclSQ : ∀ l : String, pyStartsWith l ("[" ++ "Quality" ++ "]") = true →
    pyStartsWith l ("[" ++ "Successes" ++ "]") = false :=
  marker_excl "Successes" "Quality" (by decide) (by decide)

/-- Parse characterization of the `record_reuse` content rewrite: the new
uses, successes and quality values read back from the rewritten content. -/
theorem reuseContent_parsed (success : Bool) (c : String) :
    parseIntField (reuseContent success c) "Uses" 0 = parseIntField c "Uses" 0 + 1 ∧
      parseIntField (reuseContent success c) "Successes" 0
        = parseIntField c "Successes" 0 + (if success then 1 else 0) ∧
      parseQuality (reuseContent success c) =
        (if 3 ≤ parseIntField c "Uses" 0 + 1 then
          (if (4 : ℚ) / 5 ≤ ((parseIntField c "Successes" 0 + (if success then 1 else 0) : ℤ) : ℚ)
              / ((parseIntField c "Uses" 0 + 1 : ℤ) : ℚ) then
            min 5 (parseQuality c + 1)
          else if ((parseIntField c "Successes" 0 + (if success then 1 else 0) : ℤ) : ℚ)
              / ((parseIntField c "Uses" 0 + 1 : ℤ) : ℚ) < (2 : ℚ) / 5 then
            max 1 (parseQuality c - 1)
          else parseQuality c)
        else parseQuality c) := by
  rw [reuseContent]
  set uses := parseIntField c "Uses" 0 + 1 with huses
  set succ := parseIntField c "Successes" 0 + (if success then 1 else 0) with hsucc
  have hU : '\n' ∉ ("Uses" : String).data := by decide
  have hS : '\n' ∉ ("Successes" : String).data := by decide
  have hQ : '\n' ∉ ("Quality" : String).data := by decide
  have h1 : parseIntField (setField (setField c "Uses" (pyStrInt uses)) "Successes"
      (pyStrInt succ)) "Uses" 0 = uses := by
    rw [parse_setField_other _ "Uses" "Successes" _ hS (pyStrInt_no_nl succ) exclUS,
      parse_setField_same _ _ hU]
  have h2 : parseIntField (setField (setField c "Uses" (pyStrInt uses)) "Successes"
      (pyStrInt succ)) "Successes" 0 = succ := parse_setField_same _ _ hS _ _
  have h3 : parseQuality (setField (setField c "Uses" (pyStrInt uses)) "Successes"
      (pyStrInt succ)) = parseQuality c := by
    rw [parseQuality, parse_setField_other _ "Quality" "Successes" _ hS
      (pyStrInt_no_nl succ) exclQS,
      parse_setField_other _ "Quality" "Uses" _ hU (pyStrInt_no_nl uses) exclQU, parseQuality]
  by_cases hu3 : 3 ≤ uses
  · rw [if_pos hu3, if_pos hu3, h3]
    refine ⟨?_, ?_, ?_⟩
    · rw [parse_setField_other _ "Uses" "Quality" _ hQ (pyStrInt_no_nl _) exclUQ, h1]
    · rw [parse_setField_other _ "Successes" "Quality" _ hQ (pyStrInt_no_nl _) exclSQ, h2]
    · rw [parseQuality, parse_setField_same _ _ hQ]
  · rw [if_neg hu3, if_neg hu3]
    exact ⟨h1, h2, h3⟩

theorem applyUpdates_keep (g : String → String) (ms : List (Row × String)) :
    ∀ (table : List Row) (x : Row), x ∈ table → (∀ p ∈ ms, x.key ≠ p.1.key) →
      x ∈ applyUpdates g table ms := by
  induction ms with
  | nil => intro table x hx _; exact hx
  | cons q ms ih =>
    intro table x hx hne
    rcases q with ⟨r, c⟩
    rw [applyUpdates]
    apply ih
    · rw [updateExperienceRow]
      split
      · exact List.mem_append_left _ (List.mem_filter.mpr ⟨hx, by
          simp [hne (r, c) (by simp)]⟩)
      · exact hx
    · intro p hp
      exact hne p (by simp [hp])

theorem applyUpdates_mem (g : String → String) (ms : List (Row × String)) :
    ∀ (table : List Row), (ms.map (fun p => p.1.key)).Nodup →
      ∀ p ∈ ms, p.1.key ≠ "" →
        (⟨p.1.key, g p.2, "experience", p.1.updatedAt⟩ : Row) ∈ applyUpdates g table ms := by
  induction ms with
  | nil => intro table _ p hp; simp at hp
  | cons q ms ih =>
    intro table hnd p hp hpk
    rcases q with ⟨r, c⟩
    rw [applyUpdates]
    rcases List.mem_cons.mp hp with rfl | hp2
    · apply applyUpdates_keep
      · rw [updateExperienceRow, if_pos hpk]
        exact List.mem_append_right _ (by simp)
      · intro q hq he
        exact (List.nodup_cons.mp hnd).1
          (List.mem_map.mpr ⟨q, hq, by simpa using he.symm⟩)
    · exact ih _ (List.nodup_cons.mp hnd).2 p hp2 hpk

theorem updateRow_nodup (table : List Row) (r : Row) (nc : String)
    (h : (table.map Row.key).Nodup) :
    ((updateExperienceRow table r nc).map Row.key).Nodup := by
  rw [updateExperienceRow]
  split
  · rw [List.map_append]
    apply List.Nodup.append
    · exact List.Nodup.sublist (List.Sublist.map Row.key (List.filter_sublist table)) h
    · simp
    · intro a ha hb
      rcases List.mem_map.mp ha with ⟨x, hx, rfl⟩
      have hxk : x.key ≠ r.key := by simpa using (List.mem_filter.mp hx).2
      simp at hb
      exact hxk hb
  · exact h

theorem updateRow_perm (r : Row) (nc : String) :
    ∀ (table : List Row), (table.map Row.key).Nodup → r ∈ table →
      r.rtype = "experience" →
      ((updateExperienceRow table r nc).map (fun x => (x.key, x.rtype, x.updatedAt))).Perm
        (table.map (fun x => (x.key, x.rtype, x.updatedAt))) := by
  intro table
  induction table with
  | nil => intro _ hr; simp at hr
  | cons x xs ih =>
    intro hnd hr hrt
    rw [updateExperienceRow]
    by_cases hk : r.key = ""
    · rw [if_neg (by simp [hk])]
    · rw [if_pos (by simp [hk])]
      rcases List.mem_cons.mp hr with rfl | hr2
      · have hxs : xs.filter (fun y => y.key ≠ r.key) = xs := by
          apply List.filter_eq_self.mpr
          intro y hy
          have hh := (List.nodup_cons.mp hnd).1
          simp only [decide_eq_true_eq, ne_eq]
          intro he
          exact hh (he ▸ List.mem_map.mpr ⟨y, hy, rfl⟩)
        rw [List.filter_cons, if_neg (by simp), hxs, List.map_append]
        have hnew : (fun x : Row => (x.key, x.rtype, x.updatedAt))
            (⟨r.key, nc, "experience", r.updatedAt⟩ : Row)
            = (fun x : Row => (x.key, x.rtype, x.updatedAt)) r := by
          simp [hrt]
        simp only [List.map_cons, List.map_nil, hnew]
        exact List.perm_append_singleton _ _
      · have hxk : x.key ≠ r.key := by
          have hh := (List.nodup_cons.mp hnd).1
          intro he
          exact hh (he ▸ List.mem_map.mpr ⟨r, hr2, rfl⟩)
        rw [List.filter_cons, if_pos (by simpa using hxk), List.cons_append, List.map_cons]
        have step := ih (List.nodup_cons.mp hnd).2 hr2 hrt
        rw [updateExperienceRow, if_pos (by simp [hk])] at step
        rw [List.map_cons]
        exact List.Perm.cons _ step

theorem applyUpdates_perm (g : String → String) (ms : List (Row × String)) :
    ∀ (table : List Row), (table.map Row.key).Nodup →
      (∀ p ∈ ms, p.1 ∈ table ∧ p.1.rtype = "experience") →
      (ms.map (fun p => p.1.key)).Nodup →
      ((applyUpdates g table ms).map (fun x => (x.key, x.rtype, x.updatedAt))).Perm
        (table.map (fun x => (x.key, x.rtype, x.updatedAt))) := by
  induction ms with
  | nil => intro table _ _ _; exact List.Perm.refl _
  | cons q ms ih =>
    intro table hnd hms hmsnd
    rcases q with ⟨r, c⟩
    rw [applyUpdates]
    have hr := hms (r, c) (by simp)
    have hstep := updateRow_perm r (g c) table hnd hr.1 hr.2
    have hnd2 := updateRow_nodup table r (g c) hnd
    have hmem2 : ∀ p ∈ ms, p.1 ∈ updateExperienceRow table r (g c)
        ∧ p.1.rtype = "experience" := by
      intro p hp
      have hpm := hms p (by simp [hp])
      refine ⟨?_, hpm.2⟩
      rw [updateExperienceRow]
      split
      · have hpk : p.1.key ≠ r.key := by
          intro he
          exact (List.nodup_cons.mp hmsnd).1
            (List.mem_map.mpr ⟨p, hp, by simpa using he⟩)
        exact List.mem_append_left _ (List.mem_filter.mpr ⟨hpm.1, by simpa using hpk⟩)
      · exact hpm.1
    exact (ih _ hnd2 hmem2 (List.nodup_cons.mp hmsnd).2).trans hstep

theorem filterMap_fst_sub (f : Row → Option (Row × String))
    (hf : ∀ r p, f r = some p → p.1 = r) :
    ∀ rows : List Row, ((rows.filterMap f).map Prod.fst).Sublist rows := by
  intro rows
  induction rows with
  | nil => simp
  | cons r rs ih =>
    rw [List.filterMap_cons]
    cases hfr : f r with
    | none => exact ih.cons r
    | some p =>
      rw [List.map_cons, hf r p hfr]
      exact ih.cons₂ r

theorem matchRows_fst_sub (table : List Row) (task : String) (θ : ℚ) :
    ((matchExperienceRows table task θ).map Prod.fst).Sublist table := by
  rw [matchExperienceRows]
  split
  · simp
  · refine List.Sublist.trans (filterMap_fst_sub _ ?_ _)
      (((table.filter (fun r => r.rtype == "experience")).take_sublist 100).trans
        (List.filter_sublist table))
    intro r p h
    simp only at h
    split at h
    · exact absurd h (by simp)
    · split at h
      · exact (Option.some.injEq _ _ ▸ h).symm ▸ rfl
      · exact absurd h (by simp)

theorem matchRows_facts (table : List Row) (task : String) (θ : ℚ) :
    ∀ p ∈ matchExperienceRows table task θ,
      p.1 ∈ table ∧ p.1.rtype = "experience" ∧ p.2 = p.1.content ∧
        pyContains p.1.content "[Deprecated]" = false := by
  intro p hp
  rw [matchExperienceRows] at hp
  split at hp
  · simp at hp
  · rcases List.mem_filterMap.mp hp with ⟨r, hr, hf⟩
    have hrt : r ∈ table.filter (fun r => r.rtype == "experience") :=
      List.take_subset _ _ hr
    have hrmem : r ∈ table := List.mem_of_mem_filter hrt
    have hrty : r.rtype = "experience" := by simpa using (List.mem_filter.mp hrt).2
    simp only at hf
    split at hf
    · exact absurd hf (by simp)
    · split at hf
      · have : p = (r, r.content) := by
          have := Option.some.injEq ((r, r.content)) p ▸ hf
          simpa using this.symm
        subst this
        refine ⟨hrmem, hrty, rfl, ?_⟩
        rename_i hdep _
        simpa using hdep
      · exact absurd hf (by simp)

theorem matchRows_keys_nodup (table : List Row) (task : String) (θ : ℚ)
    (h : (table.map Row.key).Nodup) :
    ((matchExperienceRows table task θ).map (fun p => p.1.key)).Nodup := by
  have hsub := matchRows_fst_sub table task θ
  have : ((matchExperienceRows table task θ).map (fun p => p.1.key))
      = (((matchExperienceRows table task θ).map Prod.fst).map Row.key) := by
    rw [List.map_map]; rfl
  rw [this]
  exact List.Nodup.sublist (List.Sublist.map Row.key hsub) h

/-- Length of the leading run of elements satisfying `p`. -/
def leadCount {α : Type} (p : α → Bool) : List α → ℕ
  | [] => 0
  | x :: xs => if p x then leadCount p xs + 1 else 0

/-- Length of the trailing run of elements satisfying `p`. -/
def trailCount {α : Type} (p : α → Bool) (l : List α) : ℕ := leadCount p l.reverse

theorem trailCount_append {α : Type} (p : α → Bool) (l : List α) (x : α) :
    trailCount p (l ++ [x]) = if p x then trailCount p l + 1 else 0 := by
  rw [trailCount, List.reverse_append]
  rfl

theorem ce_foldl_gen (l : List ToolCallModel) (st : LoopState) :
    (l.foldl processToolCall st).consecutiveErrors
      = (if trailCount (fun tc => hasErrorResult tc.result) l = l.length then
          st.consecutiveErrors + l.length
        else trailCount (fun tc => hasErrorResult tc.result) l) := by
  induction l using List.reverseRecOn with
  | nil => simp [trailCount, leadCount]
  | append_singleton l x ih =>
    rw [List.foldl_append, List.foldl_cons, List.foldl_nil, trailCount_append]
    rw [show (processToolCall (List.foldl processToolCall st l) x).consecutiveErrors
        = (if hasErrorResult x.result then
            (List.foldl processToolCall st l).consecutiveErrors + 1 else 0) from rfl]
    by_cases hx : hasErrorResult x.result = true
    · rw [if_pos hx, if_pos hx, ih]
      simp only [List.length_append, List.length_singleton]
      by_cases ht : trailCount (fun tc => hasErrorResult tc.result) l = l.length
      · rw [if_pos ht, if_pos (by omega)]
        omega
      · rw [if_neg ht, if_neg (by omega)]
    · rw [if_neg hx, if_neg hx, if_neg (by simp)]

theorem ce_trail (l : List ToolCallModel) :
    (l.foldl processToolCall initialLoopState).consecutiveErrors
      = trailCount (fun tc => hasErrorResult tc.result) l := by
  rw [ce_foldl_gen]
  split
  · rename_i h
    rw [h]
    show 0 + l.length = l.length
    omega
  · rfl

theorem loopStateAfter_flatten (rounds : List (List ToolCallModel)) :
    loopStateAfter rounds = rounds.flatten.foldl processToolCall initialLoopState := by
  rw [loopStateAfter]
  generalize initialLoopState = st
  induction rounds generalizing st with
  | nil => rfl
  | cons r rs ih =>
    rw [List.foldl_cons, List.flatten_cons, List.foldl_append, ih]
    rfl

theorem trail_mem {α : Type} (p : α → Bool) (l : List α) (k : ℕ)
    (h : k ≤ trailCount p l) : k ≤ l.length ∧ ∀ x ∈ lastN k l, p x = true := by
  induction l using List.reverseRecOn generalizing k with
  | nil =>
    have : k = 0 := by
      have : trailCount p ([] : List α) = 0 := rfl
      omega
    subst this
    simp [lastN]
  | append_singleton l a ih =>
    rw [trailCount_append] at h
    by_cases hp : p a = true
    · rw [if_pos hp] at h
      cases k with
      | zero => simp [lastN]
      | succ k0 =>
        have hk0 := ih k0 (by omega)
        have hlast : lastN (k0 + 1) (l ++ [a]) = lastN k0 l ++ [a] := by
          rw [lastN, lastN, List.length_append, List.drop_append_eq_append_drop]
          simp only [List.length_singleton]
          have h1 : l.length + 1 - (k0 + 1) = l.length - k0 := by omega
          have h2 : l.length - k0 - l.length = 0 := by omega
          rw [h1, h2, List.drop_zero]
        constructor
        · simp only [List.length_append, List.length_singleton]
          omega
        · rw [hlast]
          intro x hx
          rcases List.mem_append.mp hx with h2 | h2
          · exact hk0.2 x h2
          · rw [List.mem_singleton.mp h2]
            exact hp
    · rw [if_neg hp] at h
      have : k = 0 := by omega
      subst this
      simp [lastN]

theorem lastN_mono {α : Type} (m n : ℕ) (hmn : m ≤ n) (l : List α) :
    ∀ x ∈ lastN m l, x ∈ lastN n l := by
  intro x hx
  rw [lastN] at hx ⊢
  have heq : l.length - m = (l.length - n) + (l.length - m - (l.length - n)) := by omega
  rw [heq, ← List.drop_drop] at hx
  exact List.drop_subset _ _ hx

theorem joinSep_mem_infix (sep : String) (l : List String) (x : String) (hx : x ∈ l) :
    x.data <:+: (joinSep sep l).data := by
  induction l with
  | nil => simp at hx
  | cons y ys ih =>
    cases ys with
    | nil =>
      cases List.mem_singleton.mp hx
      simp [joinSep]
    | cons z zs =>
      rw [joinSep, strData, strData]
      rcases List.mem_cons.mp hx with rfl | h2
      · exact ((List.prefix_append x.data _).trans
          (by rw [List.append_assoc])).isInfix
      · exact (ih h2).trans (List.suffix_append _ _).isInfix

theorem mildText_head (fd : List String) : (mildText fd).data.head? = some 'T' := by
  rw [mildText, strData]
  rfl

theorem escalatedText_head (fd : List String) : (escalatedText fd).data.head? = some 'M' := by
  rw [escalatedText, strData, strData]
  rfl

theorem mild_ne_escalated (fd fd2 : List String) : mildText fd ≠ escalatedText fd2 := by
  intro h
  have h1 := mildText_head fd
  rw [h, escalatedText_head fd2] at h1
  simp at h1

theorem runLoopAux_iter (stripThink : Option String → Option String)
    (responses : ℕ → LLMResponseModel) :
    ∀ (fuel iter : ℕ) (st : LoopState),
      (runLoopAux stripThink responses fuel iter st).iterations ≤ iter + fuel := by
  intro fuel
  induction fuel with
  | zero => intro iter st; simp [runLoopAux]
  | succ fuel ih =>
    intro iter st
    rw [runLoopAux]
    split
    · exact (ih (iter + 1) _).trans (by omega)
    · show iter + 1 ≤ iter + (fuel + 1)
      omega

theorem runLoopAux_noFinal (stripThink : Option String → Option String)
    (responses : ℕ → LLMResponseModel) (h : ∀ i, (responses i).toolCalls ≠ []) :
    ∀ (fuel iter : ℕ) (st : LoopState),
      (runLoopAux stripThink responses fuel iter st).finalContent = none := by
  intro fuel
  induction fuel with
  | zero => intro iter st; rfl
  | succ fuel ih =>
    intro iter st
    rw [runLoopAux]
    split
    · exact ih (iter + 1) _
    · rename_i hn
      cases hl : (responses iter).toolCalls with
      | nil => exact absurd hl (h iter)
      | cons a t => exact absurd (by rw [hl]; simp) hn

/-- C2: the loop's consecutive-error counter becomes 0 immediately after any
tool result not classified as an error and increments by 1 on each error
result; after any sequence of tool-carrying provider rounds the counter
equals the trailing error-run length of all processed results, and the
escalated "stop retrying" instruction is produced at the end of a round only
when (at least) the last 3 tool results were errors with no intervening
non-error result. -/
theorem C2_consecutive_errors :
    (∀ (st : LoopState) (tc : ToolCallModel),
      (hasErrorResult tc.result = false →
        (processToolCall st tc).consecutiveErrors = 0) ∧
      (hasErrorResult tc.result = true →
        (processToolCall st tc).consecutiveErrors = st.consecutiveErrors + 1)) ∧
    (∀ rounds : List (List ToolCallModel),
      (loopStateAfter rounds).consecutiveErrors
        = trailCount (fun tc => hasErrorResult tc.result) rounds.flatten) ∧
    (∀ (rounds : List (List ToolCallModel)) (round : List ToolCallModel),
      (processRound (loopStateAfter rounds) round).2
          = some (escalatedText
              (processRound (loopStateAfter rounds) round).1.failedDirections) →
        3 ≤ (rounds.flatten ++ round).length ∧
          ∀ tc ∈ lastN 3 (rounds.flatten ++ round), hasErrorResult tc.result = true) := by
  refine ⟨?_, ?_, ?_⟩
  · intro st tc
    constructor
    · intro h
      simp [processToolCall, h]
    · intro h
      simp [processToolCall, h]
  · intro rounds
    rw [loopStateAfter_flatten, ce_trail]
  · intro rounds round h
    have hce : (processRound (loopStateAfter rounds) round).1.consecutiveErrors
        = trailCount (fun tc => hasErrorResult tc.result) (rounds.flatten ++ round) := by
      show (round.foldl processToolCall (loopStateAfter rounds)).consecutiveErrors = _
      rw [loopStateAfter_flatten, ← List.foldl_append, ce_trail]
    have h3 : 3 ≤ (processRound (loopStateAfter rounds) round).1.consecutiveErrors := by
      by_contra hlt
      have hfb : (processRound (loopStateAfter rounds) round).2
          = roundFeedback (processRound (loopStateAfter rounds) round).1.consecutiveErrors
              (processRound (loopStateAfter rounds) round).1.failedDirections := rfl
      rw [hfb, roundFeedback, if_neg hlt] at h
      by_cases hz : 0 < (processRound (loopStateAfter rounds) round).1.consecutiveErrors
      · rw [if_pos hz] at h
        exact mild_ne_escalated _ _ (Option.some.inj h)
      · rw [if_neg hz] at h
        exact Option.noConfusion h
    rw [hce] at h3
    exact trail_mem _ _ 3 h3

/-- Witness for C2: a single round of three error results triggers the
escalated feedback, and it indeed ends with three error results. -/
theorem C2_consecutive_errors_witness :
    ((processRound (loopStateAfter ([] : List (List ToolCallModel)))
        [⟨"a", "x", "x", "error: e1"⟩, ⟨"b", "y", "y", "error: e2"⟩,
         ⟨"c", "z", "z", "error: e3"⟩]).2
      = some (escalatedText
          (processRound (loopStateAfter ([] : List (List ToolCallModel)))
            [⟨"a", "x", "x", "error: e1"⟩, ⟨"b", "y", "y", "error: e2"⟩,
             ⟨"c", "z", "z", "error: e3"⟩]).1.failedDirections)) ∧
    (3 ≤ (List.flatten ([] : List (List ToolCallModel)) ++
        ([⟨"a", "x", "x", "error: e1"⟩, ⟨"b", "y", "y", "error: e2"⟩,
          ⟨"c", "z", "z", "error: e3"⟩] : List ToolCallModel)).length ∧
      ∀ tc ∈ lastN 3 (List.flatten ([] : List (List ToolCallModel)) ++
        ([⟨"a", "x", "x", "error: e1"⟩, ⟨"b", "y", "y", "error: e2"⟩,
          ⟨"c", "z", "z", "error: e3"⟩] : List ToolCallModel)),
        hasErrorResult tc.result = true) := by
  refine ⟨by decide, C2_consecutive_errors.2.2 _ _ (by decide)⟩

/-- C6: the loop performs at most `max_iterations` provider iterations, and
when every provider response carries tool calls the final content is none. -/
theorem C6_iteration_budget (stripThink : Option String → Option String)
    (responses : ℕ → LLMResponseModel) (maxIterations : ℕ) :
    (runLoop stripThink responses maxIterations).iterations ≤ maxIterations ∧
    ((∀ i, (responses i).toolCalls ≠ []) →
      (runLoop stripThink responses maxIterations).finalContent = none) := by
  constructor
  · have := runLoopAux_iter stripThink responses maxIterations 0 initialLoopState
    simpa [runLoop] using this
  · intro h
    exact runLoopAux_noFinal stripThink responses h maxIterations 0 initialLoopState

/-- Witness for C6: a provider that always returns one tool call exhausts a
budget of 2 iterations with no final content. -/
theorem C6_iteration_budget_witness :
    (runLoop (fun c => c) (fun _ => ⟨none, [⟨"exec", "ls", "ls", "ok"⟩]⟩) 2).iterations ≤ 2 ∧
      (runLoop (fun c => c) (fun _ => ⟨none, [⟨"exec", "ls", "ls", "ok"⟩]⟩) 2).finalContent
        = none :=
  ⟨(C6_iteration_budget (fun c => c) (fun _ => ⟨none, [⟨"exec", "ls", "ls", "ok"⟩]⟩) 2).1,
   (C6_iteration_budget (fun c => c) (fun _ => ⟨none, [⟨"exec", "ls", "ls", "ok"⟩]⟩) 2).2
     (fun i => by simp)⟩

/-- C8: a round ending with exactly 1 or 2 consecutive errors injects the
milder "analyze and try differently" instruction, and when more than one
failed direction exists that instruction contains the 2 most recent failed
directions as substrings. -/
theorem C8_mild_feedback (st : LoopState) (round : List ToolCallModel)
    (h1 : 1 ≤ (processRound st round).1.consecutiveErrors)
    (h2 : (processRound st round).1.consecutiveErrors ≤ 2) :
    (processRound st round).2
        = some (mildText (processRound st round).1.failedDirections) ∧
      (1 < (processRound st round).1.failedDirections.length →
        ∀ d ∈ lastN 2 (processRound st round).1.failedDirections,
          seqIn d.data (mildText (processRound st round).1.failedDirections).data
            = true) := by
  constructor
  · have hfb : (processRound st round).2
        = roundFeedback (processRound st round).1.consecutiveErrors
            (processRound st round).1.failedDirections := rfl
    rw [hfb, roundFeedback, if_neg (by omega), if_pos (by omega)]
  · intro hlen d hd
    rw [seqIn_iff]
    have hd3 : d ∈ lastN 3 (processRound st round).1.failedDirections :=
      lastN_mono 2 3 (by omega) _ d hd
    have hinfx := joinSep_mem_infix "; "
      (lastN 3 (processRound st round).1.failedDirections) d hd3
    rw [mildText, if_pos hlen, strData, strData]
    exact (hinfx.trans (List.suffix_append _ _).isInfix).trans
      (List.suffix_append _ _).isInfix

/-- Witness for C8: one prior failed direction plus one new error result give
a round with 1 consecutive error and 2 failed directions. -/
theorem C8_mild_feedback_witness :
    (1 ≤ (processRound ⟨0, 1, ["web_fetch(x)"], [], []⟩
        [⟨"exec", "rm", "rm", "error: denied"⟩]).1.consecutiveErrors) ∧
    ((processRound ⟨0, 1, ["web_fetch(x)"], [], []⟩
        [⟨"exec", "rm", "rm", "error: denied"⟩]).1.consecutiveErrors ≤ 2) ∧
    ((processRound ⟨0, 1, ["web_fetch(x)"], [], []⟩
        [⟨"exec", "rm", "rm", "error: denied"⟩]).2
      = some (mildText (processRound ⟨0, 1, ["web_fetch(x)"], [], []⟩
          [⟨"exec", "rm", "rm", "error: denied"⟩]).1.failedDirections) ∧
      (1 < (processRound ⟨0, 1, ["web_fetch(x)"], [], []⟩
          [⟨"exec", "rm", "rm", "error: denied"⟩]).1.failedDirections.length →
        ∀ d ∈ lastN 2 (processRound ⟨0, 1, ["web_fetch(x)"], [], []⟩
            [⟨"exec", "rm", "rm", "error: denied"⟩]).1.failedDirections,
          seqIn d.data (mildText (processRound ⟨0, 1, ["web_fetch(x)"], [], []⟩
              [⟨"exec", "rm", "rm", "error: denied"⟩]).1.failedDirections).data = true)) :=
  ⟨by decide, by decide, C8_mild_feedback _ _ (by decide) (by decide)⟩

theorem key_unique (table : List Row) (h : (table.map Row.key).Nodup) (a b : Row)
    (ha : a ∈ table) (hb : b ∈ table) (hk : a.key = b.key) : a = b :=
  List.inj_on_of_nodup_map h ha hb hk

theorem staleRemove_iff (parseTs : String → Option ℚ) (now mdd mld : ℚ) (r : Row) :
    staleRemove parseTs now mdd mld r = true ↔
      ((pyContains r.content "[Deprecated]" = true ∧ mdd < daysSince parseTs r.updatedAt now)
        ∨ (parseQuality r.content ≤ 1 ∧ mld < daysSince parseTs r.updatedAt now)) := by
  rw [staleRemove]
  simp

theorem deleteFold_mem (cond : Row → Bool) (rows : List Row) :
    ∀ (acc : List Row × ℕ) (x : Row),
      x ∈ (rows.foldl (fun a r =>
          if cond r ∧ r.key ≠ "" then (a.1.filter (fun y => y.key ≠ r.key), a.2 + 1)
          else a) acc).1
        ↔ (x ∈ acc.1 ∧ ∀ r ∈ rows, cond r = true → r.key ≠ "" → x.key ≠ r.key) := by
  induction rows with
  | nil => simp
  | cons r rows ih =>
    intro acc x
    rw [List.foldl_cons]
    by_cases hc : cond r = true ∧ r.key ≠ ""
    · rw [if_pos hc, ih]
      simp only [List.mem_filter, decide_eq_true_eq]
      constructor
      · rintro ⟨⟨hx, hk⟩, hrest⟩
        refine ⟨hx, ?_⟩
        intro r2 hr2 hcond hkey
        rcases List.mem_cons.mp hr2 with rfl | hr3
        · exact hk
        · exact hrest r2 hr3 hcond hkey
      · rintro ⟨hx, hall⟩
        exact ⟨⟨hx, hall r (by simp) hc.1 hc.2⟩,
          fun r2 hr2 hcond hkey => hall r2 (by simp [hr2]) hcond hkey⟩
    · rw [if_neg hc, ih]
      constructor
      · rintro ⟨hx, hall⟩
        refine ⟨hx, ?_⟩
        intro r2 hr2 hcond hkey
        rcases List.mem_cons.mp hr2 with rfl | hr3
        · exact absurd ⟨hcond, hkey⟩ hc
        · exact hall r2 hr3 hcond hkey
      · rintro ⟨hx, hall⟩
        exact ⟨hx, fun r2 hr2 hcond hkey => hall r2 (by simp [hr2]) hcond hkey⟩

/-- C5: with default parameters, `cleanup_stale` removes an experience record
iff it is deprecated and older than 30 days, or its quality is at most 1 and
it is older than 90 days; age comes from the record's update timestamp, and
a missing or unparseable timestamp counts as exactly 30 days. -/
theorem C5_cleanup_stale (parseTs : String → Option ℚ) (now : ℚ) (table : List Row)
    (hnodup : (table.map Row.key).Nodup) (hkeys : ∀ r ∈ table, r.key ≠ "")
    (hlen : table.length ≤ 500) (r : Row) (hr : r ∈ table) (hrt : r.rtype = "experience") :
    (r ∉ (cleanupStale parseTs now 30 90 table).1 ↔
      ((pyContains r.content "[Deprecated]" = true ∧ 30 < daysSince parseTs r.updatedAt now)
        ∨ (parseQuality r.content ≤ 1 ∧ 90 < daysSince parseTs r.updatedAt now))) ∧
    (r.updatedAt = "" → daysSince parseTs r.updatedAt now = 30) ∧
    (parseTs r.updatedAt = none → daysSince parseTs r.updatedAt now = 30) := by
  have hsnap : (table.filter (fun x => x.rtype == "experience")).take 500
      = table.filter (fun x => x.rtype == "experience") :=
    List.take_of_length_le ((List.length_filter_le _ _).trans hlen)
  have hmem := deleteFold_mem (staleRemove parseTs now 30 90)
    ((table.filter (fun x : Row => x.rtype == "experience")).take 500) (table, 0) r
  have hres : r ∈ (cleanupStale parseTs now 30 90 table).1 ↔
      (r ∈ table ∧ ∀ r2 ∈ (table.filter (fun x => x.rtype == "experience")).take 500,
        staleRemove parseTs now 30 90 r2 = true → r2.key ≠ "" → r.key ≠ r2.key) := hmem
  refine ⟨?_, ?_, ?_⟩
  · rw [show (r ∉ (cleanupStale parseTs now 30 90 table).1)
        = ¬ (r ∈ table ∧ ∀ r2 ∈ table.filter (fun x => x.rtype == "experience"),
          staleRemove parseTs now 30 90 r2 = true → r2.key ≠ "" → r.key ≠ r2.key) by
      rw [hsnap] at hres
      rw [eq_iff_iff]
      exact not_congr hres]
    constructor
    · intro hout
      by_contra hcond
      apply hout
      refine ⟨hr, ?_⟩
      intro r2 hr2 hflag hk2 hkeq
      have hr2t : r2 ∈ table := List.mem_of_mem_filter hr2
      have heq : r = r2 := key_unique table hnodup r r2 hr hr2t hkeq
      subst heq
      exact hcond ((staleRemove_iff parseTs now 30 90 r).mp hflag)
    · intro hcond hin
      exact hin.2 r (List.mem_filter.mpr ⟨hr, by simp [hrt]⟩)
        ((staleRemove_iff parseTs now 30 90 r).mpr hcond) (hkeys r hr) rfl
  · intro h
    rw [daysSince, if_pos h]
  · intro h
    rw [daysSince]
    split
    · rfl
    · rw [h]

/-- Witness for C5: a quality-1, non-deprecated record aged 89 days is kept,
the same record aged 91 days is removed. -/
theorem C5_cleanup_stale_witness :
    (⟨"experience_t", "[Task] x\n[Quality] 1", "experience", "t"⟩ : Row) ∈
        (cleanupStale (fun s => if s = "t" then some 0 else none) 89 30 90
          [⟨"experience_t", "[Task] x\n[Quality] 1", "experience", "t"⟩]).1 ∧
    (⟨"experience_t", "[Task] x\n[Quality] 1", "experience", "t"⟩ : Row) ∉
        (cleanupStale (fun s => if s = "t" then some 0 else none) 91 30 90
          [⟨"experience_t", "[Task] x\n[Quality] 1", "experience", "t"⟩]).1 := by
  have hd89 : daysSince (fun s => if s = "t" then some 0 else none) "t" 89 = 89 := by
    rw [daysSince, if_neg (by decide)]
    show max 0 ((89 : ℚ) - 0) = 89
    norm_num
  have hd91 : daysSince (fun s => if s = "t" then some 0 else none) "t" 91 = 91 := by
    rw [daysSince, if_neg (by decide)]
    show max 0 ((91 : ℚ) - 0) = 91
    norm_num
  constructor
  · have h := (C5_cleanup_stale (fun s => if s = "t" then some 0 else none) 89
      [⟨"experience_t", "[Task] x\n[Quality] 1", "experience", "t"⟩] (by decide)
      (by decide) (by decide) ⟨"experience_t", "[Task] x\n[Quality] 1", "experience", "t"⟩
      (by decide) rfl).1
    by_contra hn
    rcases h.mp hn with ⟨h1, h2⟩ | ⟨h1, h2⟩
    · exact absurd h1 (by decide)
    · rw [show (⟨"experience_t", "[Task] x\n[Quality] 1", "experience", "t"⟩ : Row).updatedAt
          = "t" from rfl, hd89] at h2
      norm_num at h2
  · refine (C5_cleanup_stale (fun s => if s = "t" then some 0 else none) 91
      [⟨"experience_t", "[Task] x\n[Quality] 1", "experience", "t"⟩] (by decide)
      (by decide) (by decide) ⟨"experience_t", "[Task] x\n[Quality] 1", "experience", "t"⟩
      (by decide) rfl).1.mpr (Or.inr ⟨by decide, ?_⟩)
    rw [show (⟨"experience_t", "[Task] x\n[Quality] 1", "experience", "t"⟩ : Row).updatedAt
        = "t" from rfl, hd91]
    norm_num

theorem groupAdd_mem_same (c x : String) (l0 : List String) :
    ∀ g : List (String × List String), (c, l0) ∈ g → (g.map Prod.fst).Nodup →
      (c, l0 ++ [x]) ∈ groupAdd c x g := by
  intro g
  induction g with
  | nil => intro h; simp at h
  | cons kv rest ih =>
    rcases kv with ⟨k, v⟩
    intro hmem hnd
    have hnd2 : k ∉ rest.map Prod.fst ∧ (rest.map Prod.fst).Nodup := by simpa using hnd
    rw [groupAdd]
    by_cases hk : k = c
    · subst hk
      rw [if_pos rfl]
      rcases List.mem_cons.mp hmem with heq | htail
      · injection heq with h1 h2
        subst h2
        exact List.mem_cons_self _ _
      · exact absurd (List.mem_map.mpr ⟨(k, l0), htail, rfl⟩) hnd2.1
    · rw [if_neg hk]
      rcases List.mem_cons.mp hmem with heq | htail
      · injection heq with h1 h2
        exact absurd h1.symm hk
      · exact List.mem_cons_of_mem _ (ih htail hnd2.2)

theorem groupAdd_mem_other (c c2 x : String) (l0 : List String) (hne : c ≠ c2) :
    ∀ g : List (String × List String), (c, l0) ∈ g → (c, l0) ∈ groupAdd c2 x g := by
  intro g
  induction g with
  | nil => intro h; simp at h
  | cons kv rest ih =>
    rcases kv with ⟨k, v⟩
    intro hmem
    rw [groupAdd]
    by_cases hk : k = c2
    · rw [if_pos hk]
      rcases List.mem_cons.mp hmem with heq | htail
      · injection heq with h1 h2
        exact absurd (h1.trans hk) hne
      · exact List.mem_cons_of_mem _ htail
    · rw [if_neg hk]
      rcases List.mem_cons.mp hmem with heq | htail
      · exact heq ▸ List.mem_cons_self _ _
      · exact List.mem_cons_of_mem _ (ih htail)

theorem groupAdd_absent (c x : String) :
    ∀ g : List (String × List String), (∀ l, (c, l) ∉ g) → (c, [x]) ∈ groupAdd c x g := by
  intro g
  induction g with
  | nil => simp [groupAdd]
  | cons kv rest ih =>
    rcases kv with ⟨k, v⟩
    intro habs
    rw [groupAdd]
    by_cases hk : k = c
    · subst hk
      exact absurd (List.mem_cons_self _ _) (habs v)
    · rw [if_neg hk]
      exact List.mem_cons_of_mem _ (ih (fun l hl => habs l (List.mem_cons_of_mem _ hl)))

theorem groupAdd_mem_inv (c c2 x : String) (l : List String) :
    ∀ g : List (String × List String), (c, l) ∈ groupAdd c2 x g → c = c2 ∨ ∃ l2, (c, l2) ∈ g := by
  intro g
  induction g with
  | nil =>
    intro h
    rw [groupAdd] at h
    have heq := List.mem_singleton.mp h
    injection heq with h1 h2
    exact Or.inl h1
  | cons kv rest ih =>
    rcases kv with ⟨k, v⟩
    intro h
    rw [groupAdd] at h
    by_cases hk : k = c2
    · rw [if_pos hk] at h
      rcases List.mem_cons.mp h with heq | htail
      · injection heq with h1 h2
        exact Or.inl (h1.trans hk)
      · exact Or.inr ⟨l, List.mem_cons_of_mem _ htail⟩
    · rw [if_neg hk] at h
      rcases List.mem_cons.mp h with heq | htail
      · injection heq with h1 h2
        refine Or.inr ⟨v, ?_⟩
        rw [h1]
        exact List.mem_cons_self _ _
      · rcases ih htail with h2 | ⟨l2, hl2⟩
        · exact Or.inl h2
        · exact Or.inr ⟨l2, List.mem_cons_of_mem _ hl2⟩

theorem groupAdd_keys (c2 x : String) (k : String) :
    ∀ g : List (String × List String),
      k ∈ (groupAdd c2 x g).map Prod.fst → k = c2 ∨ k ∈ g.map Prod.fst := by
  intro g
  induction g with
  | nil =>
    intro h
    rw [groupAdd] at h
    simpa using h
  | cons kv rest ih =>
    rcases kv with ⟨k2, v⟩
    intro h
    rw [groupAdd] at h
    by_cases hk : k2 = c2
    · rw [if_pos hk] at h
      simp only [List.map_cons, List.mem_cons] at h
      rcases h with h1 | h2
      · exact Or.inr (by simp [h1])
      · exact Or.inr (by simp [h2])
    · rw [if_neg hk] at h
      simp only [List.map_cons, List.mem_cons] at h
      rcases h with h1 | h2
      · exact Or.inr (by simp [h1])
      · rcases ih h2 with h3 | h4
        · exact Or.inl h3
        · exact Or.inr (by simp [h4])

theorem groupAdd_nodup (c x : String) :
    ∀ g : List (String × List String), (g.map Prod.fst).Nodup →
      ((groupAdd c x g).map Prod.fst).Nodup := by
  intro g
  induction g with
  | nil => intro _; simp [groupAdd]
  | cons kv rest ih =>
    rcases kv with ⟨k, v⟩
    intro hnd
    have hnd2 : k ∉ rest.map Prod.fst ∧ (rest.map Prod.fst).Nodup := by simpa using hnd
    rw [groupAdd]
    by_cases hk : k = c
    · rw [if_pos hk]
      simpa using hnd
    · rw [if_neg hk]
      simp only [List.map_cons]
      rw [List.nodup_cons]
      refine ⟨?_, ih hnd2.2⟩
      intro hkmem
      rcases groupAdd_keys c x k rest hkmem with h1 | h2
      · exact hk h1
      · exact hnd2.1 h2

theorem fold_group_present (c : String) :
    ∀ (rows : List Row) (g : List (String × List String)) (l0 : List String),
      (c, l0) ∈ g → (g.map Prod.fst).Nodup →
      (c, l0 ++ (rows.filter (fun r => catOf r.content = c)).map Row.content)
        ∈ rows.foldl (fun g r => groupAdd (catOf r.content) r.content g) g := by
  intro rows
  induction rows with
  | nil => intro g l0 hmem _; simpa using hmem
  | cons r rest ih =>
    intro g l0 hmem hnd
    rw [List.foldl_cons, List.filter_cons]
    by_cases hc : catOf r.content = c
    · rw [if_pos (by simpa using hc), List.map_cons,
        show l0 ++ r.content :: (rest.filter (fun r => catOf r.content = c)).map Row.content
          = (l0 ++ [r.content]) ++ (rest.filter (fun r => catOf r.content = c)).map Row.content
          by simp]
      have hmem2 : (c, l0 ++ [r.content]) ∈ groupAdd (catOf r.content) r.content g := by
        rw [hc]
        exact groupAdd_mem_same c r.content l0 g hmem hnd
      exact ih _ _ hmem2 (groupAdd_nodup _ _ g hnd)
    · rw [if_neg (by simpa using hc)]
      exact ih _ _ (groupAdd_mem_other c (catOf r.content) r.content l0
          (fun he => hc he.symm) g hmem)
        (groupAdd_nodup _ _ g hnd)

theorem fold_group_absent (c : String) :
    ∀ (rows : List Row) (g : List (String × List String)),
      (∀ l, (c, l) ∉ g) → (g.map Prod.fst).Nodup →
      (rows.filter (fun r => catOf r.content = c)) ≠ [] →
      (c, (rows.filter (fun r => catOf r.content = c)).map Row.content)
        ∈ rows.foldl (fun g r => groupAdd (catOf r.content) r.content g) g := by
  intro rows
  induction rows with
  | nil => intro g _ _ hne; simp at hne
  | cons r rest ih =>
    intro g habs hnd hne
    rw [List.foldl_cons, List.filter_cons]
    by_cases hc : catOf r.content = c
    · rw [if_pos (by simpa using hc), List.map_cons,
        show r.content :: (rest.filter (fun r => catOf r.content = c)).map Row.content
          = [r.content] ++ (rest.filter (fun r => catOf r.content = c)).map Row.content
          from rfl]
      have hmem2 : (c, [r.content]) ∈ groupAdd (catOf r.content) r.content g := by
        rw [hc]
        exact groupAdd_absent c r.content g habs
      exact fold_group_present c rest _ _ hmem2 (groupAdd_nodup _ _ g hnd)
    · rw [if_neg (by simpa using hc)]
      refine ih _ ?_ (groupAdd_nodup _ _ g hnd) ?_
      · intro l hl
        rcases groupAdd_mem_inv c (catOf r.content) r.content l g hl with h1 | ⟨l2, hl2⟩
        · exact hc h1.symm
        · exact habs l2 hl2
      · rw [List.filter_cons, if_neg (by simpa using hc)] at hne
        exact hne

/-- The active (non-deprecated) experience rows seen by
`get_merge_candidates` (first 200 fetched). -/
def activeExperienceRows (table : List Row) : List Row :=
  ((table.filter (fun r => r.rtype == "experience")).take 200).filter
    (fun r => ¬ pyContains r.content "[Deprecated]")

/-- C9 (amended): provided at least `min_count` active records exist (the
guard in the code, default 5), `get_merge_candidates` returns every
category group with at least 3 active members — the group being that
category's active record contents — and every returned group has at least
3 members. -/
theorem C9_merge_candidates (minCount : ℕ) (table : List Row) (c : String)
    (hmin : minCount ≤ (activeExperienceRows table).length)
    (h3 : 3 ≤ ((activeExperienceRows table).filter
      (fun r => catOf r.content = c)).length) :
    ((activeExperienceRows table).filter (fun r => catOf r.content = c)).map Row.content
        ∈ getMergeCandidates minCount table ∧
      ∀ g ∈ getMergeCandidates minCount table, 3 ≤ g.length := by
  have hneg : ¬ ((activeExperienceRows table).length < minCount) := not_lt.mpr hmin
  have hunfold : getMergeCandidates minCount table
      = if (activeExperienceRows table).length < minCount then []
        else (((activeExperienceRows table).foldl
            (fun g r => groupAdd (catOf r.content) r.content g) []).map Prod.snd).filter
          (fun entries => 3 ≤ entries.length) := rfl
  have hne : (activeExperienceRows table).filter (fun r => catOf r.content = c) ≠ [] := by
    intro h
    rw [h] at h3
    simp at h3
  have hgrp := fold_group_absent c (activeExperienceRows table) [] (by simp) (by simp) hne
  constructor
  · rw [hunfold, if_neg hneg]
    refine List.mem_filter.mpr ⟨List.mem_map.mpr ⟨_, hgrp, rfl⟩, ?_⟩
    simpa using h3
  · intro g hg
    rw [hunfold, if_neg hneg] at hg
    simpa using (List.mem_filter.mp hg).2

/-- Counterexample for C9 as stated: a store whose only records are 3 active
same-category experiences has a category with ≥3 active members, yet
`get_merge_candidates` with its default `min_count = 5` returns no group at
all (the total-active guard fires first). -/
theorem C9_counterexample :
    3 ≤ ((activeExperienceRows
        [⟨"experience_1", "[Task] a\n[Category] coding", "experience", "1"⟩,
         ⟨"experience_2", "[Task] b\n[Category] coding", "experience", "2"⟩,
         ⟨"experience_3", "[Task] c\n[Category] coding", "experience", "3"⟩]).filter
        (fun r => catOf r.content = "coding")).length ∧
      getMergeCandidates 5
        [⟨"experience_1", "[Task] a\n[Category] coding", "experience", "1"⟩,
         ⟨"experience_2", "[Task] b\n[Category] coding", "experience", "2"⟩,
         ⟨"experience_3", "[Task] c\n[Category] coding", "experience", "3"⟩] = [] := by
  constructor
  · decide
  · decide

/-- Witness for C9: five active records, three of category coding, make the
coding group merge-eligible. -/
theorem C9_merge_candidates_witness :
    (5 ≤ (activeExperienceRows
        [⟨"experience_1", "[Task] a\n[Category] coding", "experience", "1"⟩,
         ⟨"experience_2", "[Task] b\n[Category] coding", "experience", "2"⟩,
         ⟨"experience_3", "[Task] c\n[Category] coding", "experience", "3"⟩,
         ⟨"experience_4", "[Task] d\n[Category] search", "experience", "4"⟩,
         ⟨"experience_5", "[Task] e\n[Category] search", "experience", "5"⟩]).length) ∧
    ((activeExperienceRows
        [⟨"experience_1", "[Task] a\n[Category] coding", "experience", "1"⟩,
         ⟨"experience_2", "[Task] b\n[Category] coding", "experience", "2"⟩,
         ⟨"experience_3", "[Task] c\n[Category] coding", "experience", "3"⟩,
         ⟨"experience_4", "[Task] d\n[Category] search", "experience", "4"⟩,
         ⟨"experience_5", "[Task] e\n[Category] search", "experience", "5"⟩]).filter
        (fun r => catOf r.content = "coding")).map Row.content
      ∈ getMergeCandidates 5
        [⟨"experience_1", "[Task] a\n[Category] coding", "experience", "1"⟩,
         ⟨"experience_2", "[Task] b\n[Category] coding", "experience", "2"⟩,
         ⟨"experience_3", "[Task] c\n[Category] coding", "experience", "3"⟩,
         ⟨"experience_4", "[Task] d\n[Category] search", "experience", "4"⟩,
         ⟨"experience_5", "[Task] e\n[Category] search", "experience", "5"⟩] :=
  ⟨by decide, (C9_merge_candidates 5 _ "coding" (by decide) (by decide)).1⟩

/-- The survival predicate of the deletion pass of `replace_merged`: a row
survives iff no old entry resolves (via the content dict) to its key. -/
def delPred (rows : List Row) (entries : List String) (x : Row) : Bool :=
  entries.all (fun e =>
    match contentToKey rows e with
    | some k => k = "" || x.key ≠ k
    | none => true)

theorem replaceDel_fold (rows : List Row) :
    ∀ (entries : List String) (acc : List Row),
      entries.foldl
        (fun tbl entry =>
          match contentToKey rows entry with
          | some k => if k ≠ "" then tbl.filter (fun x => x.key ≠ k) else tbl
          | none => tbl) acc
      = acc.filter (delPred rows entries) := by
  intro entries
  induction entries with
  | nil =>
    intro acc
    rw [List.foldl_nil]
    rw [show delPred rows [] = fun _ => true from rfl, List.filter_true]
  | cons e rest ih =>
    intro acc
    rw [List.foldl_cons]
    have hpred : ∀ x : Row, delPred rows (e :: rest) x
        = ((match contentToKey rows e with
            | some k => (decide (k = "") || decide (x.key ≠ k))
            | none => true) && delPred rows rest x) := by
      intro x
      rw [delPred, List.all_cons]
      rfl
    cases hck : contentToKey rows e with
    | none =>
      rw [ih]
      refine List.filter_congr ?_
      intro x _
      rw [hpred x, hck]
      simp
    | some k =>
      dsimp only
      by_cases hk : k = ""
      · rw [if_neg (by simp [hk]), ih]
        refine List.filter_congr ?_
        intro x _
        rw [hpred x, hck]
        simp [hk]
      · rw [if_pos hk, ih, List.filter_filter]
        refine List.filter_congr ?_
        intro x _
        rw [hpred x, hck]
        simp [hk, Bool.and_comm]

theorem contentToKey_some (rows : List Row) (e k : String)
    (h : contentToKey rows e = some k) : ∃ r ∈ rows, r.content = e ∧ r.key = k := by
  rw [contentToKey] at h
  rcases List.getLast?_eq_some_iff.mp h with ⟨ys, hys⟩
  have hk : k ∈ (rows.filter (fun r => r.content == e)).map (fun r => r.key) := by
    rw [hys]
    simp
  rcases List.mem_map.mp hk with ⟨r, hr, hrk⟩
  exact ⟨r, List.mem_of_mem_filter hr, by simpa using (List.mem_filter.mp hr).2, hrk⟩

theorem filter_content_single (rows : List Row)
    (hnd : (rows.map Row.content).Nodup) (x : Row) (hx : x ∈ rows) :
    rows.filter (fun r => r.content == x.content) = [x] := by
  induction rows with
  | nil => simp at hx
  | cons r rest ih =>
    have hnd2 : r.content ∉ rest.map Row.content ∧ (rest.map Row.content).Nodup := by
      simpa using hnd
    rcases List.mem_cons.mp hx with rfl | hx2
    · rw [List.filter_cons, if_pos (by simp)]
      rw [List.filter_eq_nil_iff.mpr ?_]
      intro a ha
      simp only [beq_iff_eq]
      intro he
      exact hnd2.1 (he ▸ List.mem_map.mpr ⟨a, ha, rfl⟩)
    · rw [List.filter_cons, if_neg ?_, ih hnd2.2 hx2]
      simp only [beq_iff_eq, decide_eq_true_eq]
      intro he
      exact hnd2.1 (he ▸ List.mem_map.mpr ⟨x, hx2, rfl⟩)

theorem contentToKey_of_mem (rows : List Row)
    (hnd : (rows.map Row.content).Nodup) (x : Row) (hx : x ∈ rows) :
    contentToKey rows x.content = some x.key := by
  rw [contentToKey, filter_content_single rows hnd x hx]
  rfl

/-- C7 (amended): provided the experience records (first 200 fetched) have
pairwise-distinct contents and all keys are distinct and nonempty,
`replace_merged` deletes exactly the experience records whose content is
among the passed entries and appends exactly one new merged record. -/
theorem C7_replace_merged (ts : String) (table : List Row) (oldEntries : List String)
    (mergedContent : String)
    (hnodupKey : (table.map Row.key).Nodup) (hkeys : ∀ r ∈ table, r.key ≠ "")
    (hlen : table.length ≤ 200)
    (hnodupContent : ((table.filter (fun r => r.rtype == "experience")).map
      Row.content).Nodup) :
    replaceMerged ts table oldEntries mergedContent
      = table.filter (fun x => ¬ (x.rtype = "experience" ∧ x.content ∈ oldEntries))
        ++ [⟨"experience_merged_" ++ ts, mergedContent, "experience", ts⟩] := by
  have hsnap : (table.filter (fun r => r.rtype == "experience")).take 200
      = table.filter (fun r => r.rtype == "experience") :=
    List.take_of_length_le ((List.length_filter_le _ _).trans hlen)
  have hfold : replaceMerged ts table oldEntries mergedContent
      = table.filter (delPred ((table.filter (fun r => r.rtype == "experience")).take 200)
          oldEntries)
        ++ [⟨"experience_merged_" ++ ts, mergedContent, "experience", ts⟩] := by
    rw [replaceMerged, replaceDel_fold]
  rw [hfold, hsnap]
  congr 1
  refine List.filter_congr ?_
  intro x hx
  set rows := table.filter (fun r => r.rtype == "experience") with hrows
  have hiff : delPred rows oldEntries x = true ↔
      ¬ (x.rtype = "experience" ∧ x.content ∈ oldEntries) := by
    rw [delPred, List.all_eq_true]
    constructor
    · intro hall hbad
      have hxrow : x ∈ rows := by
        rw [hrows, List.mem_filter]
        exact ⟨hx, by simp [hbad.1]⟩
      have hck := contentToKey_of_mem rows hnodupContent x hxrow
      have := hall x.content hbad.2
      rw [hck] at this
      simp only [Bool.or_eq_true, decide_eq_true_eq] at this
      rcases this with h1 | h1
      · exact hkeys x hx h1
      · exact h1 rfl
    · intro hgood e he
      cases hck : contentToKey rows e with
      | none => simp
      | some k =>
        simp only [Bool.or_eq_true, decide_eq_true_eq]
        rcases contentToKey_some rows e k hck with ⟨r, hr, hre, hrk⟩
        right
        intro hxk
        have hrtable : r ∈ table := List.mem_of_mem_filter hr
        have hxr : x = r := key_unique table hnodupKey x r hx hrtable (hxk.trans hrk.symm)
        subst hxr
        exact hgood ⟨by simpa using (List.mem_filter.mp hr).2, hre ▸ he⟩
  cases hb : delPred rows oldEntries x with
  | false =>
    have h2 : ¬ ¬ (x.rtype = "experience" ∧ x.content ∈ oldEntries) := by
      intro hg
      have hcontra := hiff.mpr hg
      rw [hb] at hcontra
      exact absurd hcontra (by simp)
    exact (decide_eq_false h2).symm
  | true => exact (decide_eq_true (hiff.mp hb)).symm

/-- Counterexample for C7 as stated: with two experience rows sharing the
same content, passing that content once deletes only one of them — an
originally-passed record (one row with the passed content) survives the
merge, so the store does not contain zero of the originally-passed
records. -/
theorem C7_counterexample :
    ((replaceMerged "9"
        [⟨"experience_1", "[Task] a", "experience", "1"⟩,
         ⟨"experience_2", "[Task] a", "experience", "2"⟩]
        ["[Task] a"] "[Task] merged").filter
      (fun r => r.content == "[Task] a")).length = 1 := by
  decide

/-- Witness for C7: two distinct-content records both passed are both
deleted and exactly one merged record is appended. -/
theorem C7_replace_merged_witness :
    replaceMerged "9"
        [⟨"experience_1", "[Task] a", "experience", "1"⟩,
         ⟨"experience_2", "[Task] b", "experience", "2"⟩]
        ["[Task] a", "[Task] b"] "[Task] m"
      = ([⟨"experience_1", "[Task] a", "experience", "1"⟩,
          ⟨"experience_2", "[Task] b", "experience", "2"⟩] : List Row).filter
          (fun x => ¬ (x.rtype = "experience" ∧ x.content ∈ ["[Task] a", "[Task] b"]))
        ++ [⟨"experience_merged_" ++ "9", "[Task] m", "experience", "9"⟩] :=
  C7_replace_merged "9"
    [⟨"experience_1", "[Task] a", "experience", "1"⟩,
     ⟨"experience_2", "[Task] b", "experience", "2"⟩]
    ["[Task] a", "[Task] b"] "[Task] m" (by decide) (by decide) (by decide) (by decide)

/-- C10: `record_reuse` and `deprecate_similar` rewrite only matched
records' content: the multiset of (key, type, update-timestamp) triples of
the table is unchanged by either operation (so decay ages are never
refreshed), and every row matched by neither operation survives
untouched. -/
theorem C10_reuse_deprecate_frame (table : List Row) (task : String) (success : Bool)
    (hnodup : (table.map Row.key).Nodup) :
    ((recordReuse table task success).1.map (fun x => (x.key, x.rtype, x.updatedAt))).Perm
        (table.map (fun x => (x.key, x.rtype, x.updatedAt))) ∧
    ((deprecateSimilar table task).1.map (fun x => (x.key, x.rtype, x.updatedAt))).Perm
        (table.map (fun x => (x.key, x.rtype, x.updatedAt))) ∧
    (∀ x ∈ table, (∀ p ∈ matchExperienceRows table task (2 / 5), p.1.key ≠ x.key) →
      x ∈ (recordReuse table task success).1) ∧
    (∀ x ∈ table, (∀ p ∈ matchExperienceRows table task (1 / 2), p.1.key ≠ x.key) →
      x ∈ (deprecateSimilar table task).1) := by
  refine ⟨?_, ?_, ?_, ?_⟩
  · exact applyUpdates_perm _ _ table hnodup
      (fun p hp => ⟨(matchRows_facts _ _ _ p hp).1, (matchRows_facts _ _ _ p hp).2.1⟩)
      (matchRows_keys_nodup _ _ _ hnodup)
  · exact applyUpdates_perm _ _ table hnodup
      (fun p hp => ⟨(matchRows_facts _ _ _ p hp).1, (matchRows_facts _ _ _ p hp).2.1⟩)
      (matchRows_keys_nodup _ _ _ hnodup)
  · intro x hx hno
    exact applyUpdates_keep _ _ table x hx (fun p hp => (hno p hp).symm)
  · intro x hx hno
    exact applyUpdates_keep _ _ table x hx (fun p hp => (hno p hp).symm)

/-- Witness for C10: a store with one matching and one unrelated record. -/
theorem C10_reuse_deprecate_frame_witness :
    ((recordReuse
        [⟨"experience_1",
          "[Task] alpha beta\n[Outcome] success\n[Category] general\n[Quality] 3\n[Uses] 0\n[Successes] 0\n[Lessons] x",
          "experience", "t1"⟩]
        "alpha beta" true).1.map (fun x => (x.key, x.rtype, x.updatedAt))).Perm
      (([⟨"experience_1",
          "[Task] alpha beta\n[Outcome] success\n[Category] general\n[Quality] 3\n[Uses] 0\n[Successes] 0\n[Lessons] x",
          "experience", "t1"⟩] : List Row).map (fun x => (x.key, x.rtype, x.updatedAt))) :=
  (C10_reuse_deprecate_frame _ "alpha beta" true (by decide)).1

theorem applyUpdates_inv (g : String → String) (P : Row → Prop) (ms : List (Row × String)) :
    ∀ table : List Row, (∀ x ∈ table, P x) →
      (∀ p ∈ ms, P ⟨p.1.key, g p.2, "experience", p.1.updatedAt⟩) →
      ∀ x ∈ applyUpdates g table ms, P x := by
  induction ms with
  | nil => intro table htab _; exact htab
  | cons q ms ih =>
    intro table htab hnew
    rcases q with ⟨r, c⟩
    rw [applyUpdates]
    refine ih _ ?_ (fun p hp => hnew p (by simp [hp]))
    intro x hx
    rw [updateExperienceRow] at hx
    split at hx
    · rcases List.mem_append.mp hx with h2 | h2
      · exact htab x (List.mem_of_mem_filter h2)
      · rw [List.mem_singleton.mp h2]
        exact hnew (r, c) (by simp)
    · exact htab x hx

theorem strExt (a b : String) (h : a.data = b.data) : a = b := by
  cases a
  cases b
  cases h
  rfl

theorem notQ_task (s : String) : pyStartsWith ("[Task] " ++ s) "[Quality]" = false := by
  rw [pyStartsWith, strData]
  rw [show ("[Task] " : String).data = ['[', 'T', 'a', 's', 'k', ']', ' '] from rfl,
    show ("[Quality]" : String).data = ['[', 'Q', 'u', 'a', 'l', 'i', 't', 'y', ']'] from rfl]
  simp [seqStarts]

theorem notQ_outcome (s : String) : pyStartsWith ("[Outcome] " ++ s) "[Quality]" = false := by
  rw [pyStartsWith, strData]
  rw [show ("[Outcome] " : String).data = ['[', 'O', 'u', 't', 'c', 'o', 'm', 'e', ']', ' ']
      from rfl,
    show ("[Quality]" : String).data = ['[', 'Q', 'u', 'a', 'l', 'i', 't', 'y', ']'] from rfl]
  simp [seqStarts]

theorem notQ_category (s : String) : pyStartsWith ("[Category] " ++ s) "[Quality]" = false := by
  rw [pyStartsWith, strData]
  rw [show ("[Category] " : String).data
      = ['[', 'C', 'a', 't', 'e', 'g', 'o', 'r', 'y', ']', ' '] from rfl,
    show ("[Quality]" : String).data = ['[', 'Q', 'u', 'a', 'l', 'i', 't', 'y', ']'] from rfl]
  simp [seqStarts]

theorem no_nl_lit_task (s : String) (hs : '\n' ∉ s.data) : '\n' ∉ ("[Task] " ++ s).data := by
  rw [strData]
  intro h
  rcases List.mem_append.mp h with h2 | h2
  · revert h2
    decide
  · exact hs h2

theorem no_nl_lit_outcome (s : String) (hs : '\n' ∉ s.data) :
    '\n' ∉ ("[Outcome] " ++ s).data := by
  rw [strData]
  intro h
  rcases List.mem_append.mp h with h2 | h2
  · revert h2
    decide
  · exact hs h2

theorem no_nl_lit_category (s : String) (hs : '\n' ∉ s.data) :
    '\n' ∉ ("[Category] " ++ s).data := by
  rw [strData]
  intro h
  rcases List.mem_append.mp h with h2 | h2
  · revert h2
    decide
  · exact hs h2

theorem no_nl_lit_quality (q : ℤ) : '\n' ∉ ("[Quality] " ++ pyStrInt q).data := by
  rw [strData]
  intro h
  rcases List.mem_append.mp h with h2 | h2
  · revert h2
    decide
  · exact pyStrInt_no_nl q h2

/-- Line-structured form of the content built by `append_experience`. -/
theorem experienceContent_lines (task outcome lessons : String) (quality : ℤ)
    (category keywords reasoningTrace : String) :
    experienceContent task outcome lessons quality category keywords reasoningTrace
      = ("[Task] " ++ task) ++ "\n"
        ++ (("[Outcome] " ++ outcome) ++ "\n"
          ++ (("[Category] " ++ category) ++ "\n"
            ++ (("[Quality] " ++ pyStrInt quality) ++ "\n"
              ++ ("[Uses] 0\n[Successes] 0\n[Lessons] " ++ lessons
                ++ (if keywords ≠ "" then "\n[Keywords] " ++ keywords else "")
                ++ (if reasoningTrace ≠ "" then "\n[Trace] " ++ reasoningTrace else ""))))) := by
  rw [experienceContent]
  have hd1 : ("\n[Outcome] " : String).data = '\n' :: ("[Outcome] " : String).data := rfl
  have hd2 : ("\n[Category] " : String).data = '\n' :: ("[Category] " : String).data := rfl
  have hd3 : ("\n[Quality] " : String).data = '\n' :: ("[Quality] " : String).data := rfl
  have hd4 : ("\n[Uses] 0\n[Successes] 0\n[Lessons] " : String).data
      = '\n' :: ("[Uses] 0\n[Successes] 0\n[Lessons] " : String).data := rfl
  by_cases hkw : keywords = "" <;> by_cases htr : reasoningTrace = "" <;>
    (apply strExt; simp [hkw, htr, strData, hd1, hd2, hd3, hd4])

/-- The quality stored by `append_experience` reads back as the quality
argument when the preceding free-text fields contain no newline. -/
theorem quality_experienceContent (task outcome lessons : String) (quality : ℤ)
    (category keywords reasoningTrace : String) (ht : '\n' ∉ task.data)
    (ho : '\n' ∉ outcome.data) (hc : '\n' ∉ category.data) :
    parseQuality
      (experienceContent task outcome lessons quality category keywords reasoningTrace)
      = quality := by
  rw [parseQuality, parseIntField, experienceContent_lines]
  rw [pyLines_glue _ _ (no_nl_lit_task task ht),
    pyLines_glue _ _ (no_nl_lit_outcome outcome ho),
    pyLines_glue _ _ (no_nl_lit_category category hc),
    pyLines_glue _ _ (no_nl_lit_quality quality)]
  rw [parseIntLines, if_neg (by simp [notQ_task])]
  rw [parseIntLines, if_neg (by simp [notQ_outcome])]
  rw [parseIntLines, if_neg (by simp [notQ_category])]
  rw [show ("[Quality] " ++ pyStrInt quality) = "[" ++ "Quality" ++ "] " ++ pyStrInt quality
    from rfl]
  exact parseIntLines_fieldLine "Quality" (pyStrInt quality) 3 quality
    (by rw [pyStrip_pyStrInt, parse_pyStrInt]) _

/-- The store operations quantified over in the quality-invariant claim. -/
inductive MemOp : Type
  | append (ts task outcome lessons : String) (quality : ℤ)
      (category keywords reasoningTrace : String) : MemOp
  | reuse (taskDesc : String) (success : Bool) : MemOp

/-- Apply one store operation to the table. -/
def applyOp (table : List Row) : MemOp → List Row
  | .append ts task outcome lessons quality category keywords reasoningTrace =>
    appendExperience ts table task outcome lessons quality category keywords reasoningTrace
  | .reuse taskDesc success => (recordReuse table taskDesc success).1

/-- Every experience record's stored quality lies in `[1, 5]`. -/
def QualityInv (table : List Row) : Prop :=
  ∀ r ∈ table, r.rtype = "experience" →
    1 ≤ parseQuality r.content ∧ parseQuality r.content ≤ 5

/-- The caller-side discipline of `loop.py`: quality arguments are clamped
to `[1, 5]` before `append_experience`, and the single-line task, outcome
and category fields contain no newline. -/
def wellFormedOp : MemOp → Prop
  | .append _ task outcome _ quality category _ _ =>
    1 ≤ quality ∧ quality ≤ 5 ∧ '\n' ∉ task.data ∧ '\n' ∉ outcome.data
      ∧ '\n' ∉ category.data
  | .reuse _ _ => True

theorem reuseContent_quality_range (success : Bool) (c : String)
    (h1 : 1 ≤ parseQuality c) (h2 : parseQuality c ≤ 5) :
    1 ≤ parseQuality (reuseContent success c) ∧ parseQuality (reuseContent success c) ≤ 5 := by
  rw [(reuseContent_parsed success c).2.2]
  by_cases hA : 3 ≤ parseIntField c "Uses" 0 + 1
  · rw [if_pos hA]
    by_cases hB : (4 : ℚ) / 5 ≤ ((parseIntField c "Successes" 0
        + (if success then 1 else 0) : ℤ) : ℚ) / ((parseIntField c "Uses" 0 + 1 : ℤ) : ℚ)
    · rw [if_pos hB]
      exact ⟨le_min (by norm_num) (by omega), min_le_left _ _⟩
    · rw [if_neg hB]
      by_cases hC : ((parseIntField c "Successes" 0
          + (if success then 1 else 0) : ℤ) : ℚ) / ((parseIntField c "Uses" 0 + 1 : ℤ) : ℚ)
          < (2 : ℚ) / 5
      · rw [if_pos hC]
        exact ⟨le_max_left _ _, max_le (by norm_num) (by omega)⟩
      · rw [if_neg hC]
        exact ⟨h1, h2⟩
  · rw [if_neg hA]
    exact ⟨h1, h2⟩

/-- C3 (amended): starting from a store whose experience records all have
quality in `[1, 5]`, any sequence of `append_experience` calls with quality
arguments in `[1, 5]` (and newline-free task/outcome/category fields, as
the extraction caller guarantees) and `record_reuse` calls keeps every
experience record's stored quality in `[1, 5]`. -/
theorem C3_quality_invariant (ops : List MemOp) :
    ∀ table : List Row, QualityInv table → (∀ op ∈ ops, wellFormedOp op) →
      QualityInv (ops.foldl applyOp table) := by
  induction ops with
  | nil => intro table hinv _; exact hinv
  | cons op ops ih =>
    intro table hinv hops
    rw [List.foldl_cons]
    refine ih _ ?_ (fun o ho => hops o (by simp [ho]))
    cases op with
    | append ts task outcome lessons quality category keywords reasoningTrace =>
      have hwf := hops
        (MemOp.append ts task outcome lessons quality category keywords reasoningTrace)
        (List.mem_cons_self _ _)
      rw [wellFormedOp] at hwf
      intro r hr hrt
      rw [applyOp, appendExperience] at hr
      rcases List.mem_append.mp hr with h2 | h2
      · exact hinv r h2 hrt
      · rw [List.mem_singleton.mp h2]
        rw [show (⟨"experience_" ++ ts,
            experienceContent task outcome lessons quality category keywords reasoningTrace,
            "experience", ts⟩ : Row).content
          = experienceContent task outcome lessons quality category keywords reasoningTrace
          from rfl]
        rw [quality_experienceContent task outcome lessons quality category keywords
          reasoningTrace hwf.2.2.1 hwf.2.2.2.1 hwf.2.2.2.2]
        exact ⟨hwf.1, hwf.2.1⟩
    | reuse taskDesc success =>
      rw [applyOp]
      refine applyUpdates_inv _ _ _ table (fun x hx => hinv x hx) ?_
      intro p hp hrt
      have hfacts := matchRows_facts table taskDesc (2 / 5) p hp
      have hq := hinv p.1 hfacts.1 hfacts.2.1
      rw [show (⟨p.1.key, reuseContent success p.2, "experience", p.1.updatedAt⟩ : Row).content
          = reuseContent success p.2 from rfl, hfacts.2.2.1]
      exact reuseContent_quality_range success p.1.content hq.1 hq.2

/-- Counterexample for C3 as stated: `append_experience` performs no
clamping, so an out-of-range quality argument (7) is stored as-is. -/
theorem C3_counterexample :
    ¬ QualityInv (appendExperience "t" [] "task" "success" "lesson" 7 "general" "" "") := by
  intro h
  have := h ⟨"experience_" ++ "t",
      experienceContent "task" "success" "lesson" 7 "general" "" "",
      "experience", "t"⟩ (by rw [appendExperience]; simp) rfl
  revert this
  decide

/-- Witness for C3: appending with quality 5 and reinforcing keeps all
qualities in range. -/
theorem C3_quality_invariant_witness :
    QualityInv
      ([MemOp.append "t" "alpha beta" "success" "les" 5 "general" "" "",
        MemOp.reuse "alpha beta" true].foldl applyOp []) :=
  C3_quality_invariant
    [MemOp.append "t" "alpha beta" "success" "les" 5 "general" "" "",
     MemOp.reuse "alpha beta" true] [] (fun r hr => by simp at hr)
    (by
      intro op ho
      rcases List.mem_cons.mp ho with rfl | h2
      · exact ⟨by decide, by decide, by decide, by decide, by decide⟩
      · rcases List.mem_cons.mp h2 with rfl | h3
        · exact trivial
        · simp at h3)

/-- C4: for every active (non-deprecated) experience record (among the 100
fetched) whose keyword-hit count reaches 40% of the task's keyword set,
`record_reuse(task, success)` rewrites it so that uses increases by 1,
successes increases by 1 iff `success`, and — once the resulting uses is at
least 3 — quality is recomputed from confidence successes/uses: +1 capped
at 5 when confidence is at least 0.8, −1 floored at 1 when below 0.4, else
unchanged. -/
theorem C4_record_reuse (table : List Row) (task : String) (success : Bool) (r : Row)
    (hnodup : (table.map Row.key).Nodup) (hkeys : ∀ x ∈ table, x.key ≠ "")
    (hmem : r ∈ (table.filter (fun x => x.rtype == "experience")).take 100)
    (hactive : pyContains r.content "[Deprecated]" = false)
    (hkw : pyKeywords task ≠ [])
    (hoverlap : ((pyKeywords task).length : ℚ) * (2 / 5)
      ≤ (((pyKeywords task).countP (fun kw => pyContains (pyLower r.content) kw) : ℕ) : ℚ)) :
    ∃ r2 ∈ (recordReuse table task success).1,
      r2.key = r.key ∧ r2.updatedAt = r.updatedAt ∧
      parseIntField r2.content "Uses" 0 = parseIntField r.content "Uses" 0 + 1 ∧
      parseIntField r2.content "Successes" 0
        = parseIntField r.content "Successes" 0 + (if success then 1 else 0) ∧
      parseQuality r2.content =
        (if 3 ≤ parseIntField r.content "Uses" 0 + 1 then
          (if (4 : ℚ) / 5 ≤ ((parseIntField r.content "Successes" 0
              + (if success then 1 else 0) : ℤ) : ℚ)
              / ((parseIntField r.content "Uses" 0 + 1 : ℤ) : ℚ) then
            min 5 (parseQuality r.content + 1)
          else if ((parseIntField r.content "Successes" 0
              + (if success then 1 else 0) : ℤ) : ℚ)
              / ((parseIntField r.content "Uses" 0 + 1 : ℤ) : ℚ) < (2 : ℚ) / 5 then
            max 1 (parseQuality r.content - 1)
          else parseQuality r.content)
        else parseQuality r.content) := by
  have hrmem : (r, r.content) ∈ matchExperienceRows table task (2 / 5) := by
    have hunfold : matchExperienceRows table task (2 / 5)
        = if pyKeywords task = [] then []
          else ((table.filter (fun x => x.rtype == "experience")).take 100).filterMap
            (fun x =>
              if pyContains x.content "[Deprecated]" then none
              else
                if ((pyKeywords task).length : ℚ) * (2 / 5)
                    ≤ (((pyKeywords task).countP
                      (fun kw => pyContains (pyLower x.content) kw) : ℕ) : ℚ) then
                  some (x, x.content)
                else none) := rfl
    rw [hunfold, if_neg hkw]
    refine List.mem_filterMap.mpr ⟨r, hmem, ?_⟩
    rw [if_neg (by simp [hactive]), if_pos hoverlap]
  have hrk : r.key ≠ "" :=
    hkeys r (List.mem_of_mem_filter (List.take_subset _ _ hmem))
  have hnew := applyUpdates_mem (reuseContent success)
    (matchExperienceRows table task (2 / 5)) table
    (matchRows_keys_nodup table task (2 / 5) hnodup) (r, r.content) hrmem hrk
  refine ⟨⟨r.key, reuseContent success r.content, "experience", r.updatedAt⟩, hnew,
    rfl, rfl, ?_, ?_, ?_⟩
  · exact (reuseContent_parsed success r.content).1
  · exact (reuseContent_parsed success r.content).2.1
  · exact (reuseContent_parsed success r.content).2.2

/-- Witness for C4: a record at uses 2, successes 2 reinforced with success
reaches uses 3, confidence 1, and quality 3 + 1 = 4. -/
theorem C4_record_reuse_witness :
    ∃ r2 ∈ (recordReuse
        [⟨"experience_1",
          "[Task] alpha beta\n[Outcome] success\n[Category] general\n[Quality] 3\n[Uses] 2\n[Successes] 2\n[Lessons] x",
          "experience", "t1"⟩]
        "alpha beta" true).1,
      r2.key = "experience_1" ∧ r2.updatedAt = "t1" ∧
      parseIntField r2.content "Uses" 0 = 3 ∧
      parseIntField r2.content "Successes" 0 = 3 ∧
      parseQuality r2.content = 4 := by
  have hcontq : parseQuality
      "[Task] alpha beta\n[Outcome] success\n[Category] general\n[Quality] 3\n[Uses] 2\n[Successes] 2\n[Lessons] x"
      = 3 := by decide
  have hcontu : parseIntField
      "[Task] alpha beta\n[Outcome] success\n[Category] general\n[Quality] 3\n[Uses] 2\n[Successes] 2\n[Lessons] x"
      "Uses" 0 = 2 := by decide
  have hconts : parseIntField
      "[Task] alpha beta\n[Outcome] success\n[Category] general\n[Quality] 3\n[Uses] 2\n[Successes] 2\n[Lessons] x"
      "Successes" 0 = 2 := by decide
  have hlen : (pyKeywords "alpha beta").length = 2 := by decide
  have hcnt : (pyKeywords "alpha beta").countP
      (fun kw => pyContains (pyLower
        (⟨"experience_1",
          "[Task] alpha beta\n[Outcome] success\n[Category] general\n[Quality] 3\n[Uses] 2\n[Successes] 2\n[Lessons] x",
          "experience", "t1"⟩ : Row).content) kw) = 2 := by decide
  have h := C4_record_reuse
    [⟨"experience_1",
      "[Task] alpha beta\n[Outcome] success\n[Category] general\n[Quality] 3\n[Uses] 2\n[Successes] 2\n[Lessons] x",
      "experience", "t1"⟩]
    "alpha beta" true
    ⟨"experience_1",
      "[Task] alpha beta\n[Outcome] success\n[Category] general\n[Quality] 3\n[Uses] 2\n[Successes] 2\n[Lessons] x",
      "experience", "t1"⟩
    (by decide) (by decide) (by decide) (by decide) (by decide)
    (by
      rw [hlen, hcnt]
      norm_num)
  rcases h with ⟨r2, hr2, hk, hu, h1, h2, h3⟩
  refine ⟨r2, hr2, hk, hu, ?_, ?_, ?_⟩
  · rw [h1]
    rw [show (⟨"experience_1",
      "[Task] alpha beta\n[Outcome] success\n[Category] general\n[Quality] 3\n[Uses] 2\n[Successes] 2\n[Lessons] x",
      "experience", "t1"⟩ : Row).content
      = "[Task] alpha beta\n[Outcome] success\n[Category] general\n[Quality] 3\n[Uses] 2\n[Successes] 2\n[Lessons] x"
      from rfl, hcontu]
    decide
  · rw [h2]
    rw [show (⟨"experience_1",
      "[Task] alpha beta\n[Outcome] success\n[Category] general\n[Quality] 3\n[Uses] 2\n[Successes] 2\n[Lessons] x",
      "experience", "t1"⟩ : Row).content
      = "[Task] alpha beta\n[Outcome] success\n[Category] general\n[Quality] 3\n[Uses] 2\n[Successes] 2\n[Lessons] x"
      from rfl, hconts]
    decide
  · rw [h3]
    rw [show (⟨"experience_1",
      "[Task] alpha beta\n[Outcome] success\n[Category] general\n[Quality] 3\n[Uses] 2\n[Successes] 2\n[Lessons] x",
      "experience", "t1"⟩ : Row).content
      = "[Task] alpha beta\n[Outcome] success\n[Category] general\n[Quality] 3\n[Uses] 2\n[Successes] 2\n[Lessons] x"
      from rfl, hcontu, hconts, hcontq]
    norm_num

theorem lookup_mem (k v : String) :
    ∀ l : List (String × String), l.lookup k = some v → (k, v) ∈ l := by
  intro l
  induction l with
  | nil => intro h; simp [List.lookup] at h
  | cons kv t ih =>
    rcases kv with ⟨a, b⟩
    intro h
    rw [List.lookup] at h
    cases hbeq : (k == a) with
    | true =>
      rw [hbeq] at h
      have hk : k = a := by simpa using hbeq
      have hbv : b = v := Option.some.inj h
      rw [hk, ← hbv]
      exact List.mem_cons_self _ _
    | false =>
      rw [hbeq] at h
      exact List.mem_cons_of_mem _ (ih h)

theorem pyStrip_data_sub (s : String) : ∀ c ∈ (pyStrip s).data, c ∈ s.data := by
  intro c hc
  rw [pyStrip] at hc
  have h1 := List.mem_reverse.mp hc
  have h2 := (List.dropWhile_sublist _).subset h1
  have h3 := List.mem_reverse.mp h2
  exact (List.dropWhile_sublist _).subset h3

theorem parseFieldLines_no_nl (F : String) :
    ∀ lines : List String, (∀ l ∈ lines, '\n' ∉ l.data) →
      '\n' ∉ (parseFieldLines F lines).data := by
  intro lines
  induction lines with
  | nil =>
    intro _
    show '\n' ∉ ("" : String).data
    decide
  | cons l ls ih =>
    intro hno
    rw [parseFieldLines]
    split
    · intro hmem
      have h1 := pyStrip_data_sub _ _ hmem
      rw [pyDrop] at h1
      exact hno l (by simp) (List.drop_subset _ _ h1)
    · exact ih (fun x hx => hno x (by simp [hx]))

theorem parseField_no_nl (c F : String) : '\n' ∉ (parseField c F).data :=
  parseFieldLines_no_nl F (pyLines c) (pyLines_parts c)

theorem seqStarts_head_ne (c a : Char) (cs as : List Char) (h : c ≠ a) :
    seqStarts (c :: cs) (a :: as) = false := by
  rw [seqStarts]
  simp [h]

theorem parseField_glue (P c F : String) (hP : '\n' ∉ P.data)
    (hnot : pyStartsWith P ("[" ++ F ++ "]") = false) :
    parseField (P ++ "\n" ++ c) F = parseField c F := by
  rw [parseField, pyLines_glue P c hP, parseFieldLines, if_neg (by simp [hnot]), parseField]

theorem conflictNote_eq (cat prev outcome content : String) :
    conflictNote cat prev outcome content
      = ("⚡ CONFLICTING experience (category '" ++ cat ++ "' has both " ++ prev ++ " and "
          ++ outcome ++ "):") ++ "\n" ++ content := by
  rw [conflictNote]
  apply strExt
  have hd : ("):\n" : String).data = (")" : String).data ++ (":" : String).data
      ++ ("\n" : String).data := rfl
  have hd2 : ("):" : String).data = (")" : String).data ++ (":" : String).data := rfl
  simp [strData, hd, hd2]

theorem warningNote_eq (content : String) :
    warningNote content = "⚠️ WARNING from past failure:" ++ "\n" ++ content := by
  rw [warningNote]
  apply strExt
  have hd : ("⚠️ WARNING from past failure:\n" : String).data
      = ("⚠️ WARNING from past failure:" : String).data ++ ("\n" : String).data := rfl
  simp [strData, hd]

theorem conflict_head (cat prev outcome : String) (F : String) :
    pyStartsWith ("⚡ CONFLICTING experience (category '" ++ cat ++ "' has both " ++ prev
      ++ " and " ++ outcome ++ "):") ("[" ++ F ++ "]") = false := by
  rw [pyStartsWith, marker_data]
  have h1 : ("⚡ CONFLICTING experience (category '" : String).data
      = '⚡' :: (" CONFLICTING experience (category '" : String).data := rfl
  have hdata : (("⚡ CONFLICTING experience (category '" ++ cat ++ "' has both " ++ prev
      ++ " and " ++ outcome ++ "):") : String).data
      = '⚡' :: ((" CONFLICTING experience (category '" : String).data ++ (cat.data
        ++ (("' has both " : String).data ++ (prev.data ++ ((" and " : String).data
        ++ (outcome.data ++ ("):" : String).data)))))) := by
    simp [strData, h1]
  rw [hdata]
  exact seqStarts_head_ne '[' '⚡' _ _ (by decide)

theorem warning_head (F : String) :
    pyStartsWith "⚠️ WARNING from past failure:" ("[" ++ F ++ "]") = false := by
  rw [pyStartsWith, marker_data]
  rw [show ("⚠️ WARNING from past failure:" : String).data
      = '⚠' :: ("️ WARNING from past failure:" : String).data from rfl]
  exact seqStarts_head_ne '[' '⚠' _ _ (by decide)

theorem conflict_parse (cat prev outcome content : String)
    (hc : '\n' ∉ cat.data) (hp : '\n' ∉ prev.data) (ho : '\n' ∉ outcome.data) :
    parseField (conflictNote cat prev outcome content) "Outcome"
      = parseField content "Outcome" := by
  rw [conflictNote_eq]
  refine parseField_glue _ content "Outcome" ?_ (conflict_head cat prev outcome "Outcome")
  intro hmem
  simp only [strData, List.mem_append] at hmem
  rcases hmem with (((((h | h) | h) | h) | h) | h) | h
  · revert h; decide
  · exact hc h
  · revert h; decide
  · exact hp h
  · revert h; decide
  · exact ho h
  · revert h; decide

theorem warning_parse (content : String) :
    parseField (warningNote content) "Outcome" = parseField content "Outcome" := by
  rw [warningNote_eq]
  exact parseField_glue _ content "Outcome" (by decide) (warning_head "Outcome")

theorem collectScored_facts (decayFn : ℚ → ℚ) (parseTs : String → Option ℚ) (now : ℚ) :
    ∀ rows : List Row,
      (∀ p ∈ (collectScored decayFn parseTs now rows).1,
        parseField p.2 "Outcome" ≠ "failed") ∧
      (∀ p ∈ (collectScored decayFn parseTs now rows).2,
        parseField p.2 "Outcome" = "failed") := by
  intro rows
  induction rows with
  | nil => exact ⟨by simp [collectScored], by simp [collectScored]⟩
  | cons r rs ih =>
    rw [collectScored]
    split
    · exact ih
    · split
      · refine ⟨ih.1, ?_⟩
        intro p hp
        rcases List.mem_cons.mp hp with rfl | h2
        · assumption
        · exact ih.2 p h2
      · refine ⟨?_, ih.2⟩
        intro p hp
        rcases List.mem_cons.mp hp with rfl | h2
        · assumption
        · exact ih.1 p h2

theorem sortDesc_perm (l : List (ℚ × String)) : (sortDesc l).Perm l :=
  List.mergeSort_perm l _

theorem sortDesc_sorted (l : List (ℚ × String)) :
    List.Pairwise (fun a b : ℚ × String => decide (b.1 ≤ a.1) = true) (sortDesc l) := by
  refine List.sorted_mergeSort ?_ ?_ l
  · intro a b c hab hbc
    simp only [decide_eq_true_eq] at hab hbc ⊢
    exact hbc.trans hab
  · intro a b
    simp only [Bool.or_eq_true, decide_eq_true_eq]
    exact le_total b.1 a.1

theorem positiveLoop_len (limit : ℕ) :
    ∀ (ps : List (ℚ × String)) (results : List String) (seen : List (String × String)),
      results.length ≤ limit - 1 → (positiveLoop limit ps results seen).length ≤ limit - 1 := by
  intro ps
  induction ps with
  | nil => intro results seen h; exact h
  | cons p rest ih =>
    intro results seen h
    rcases p with ⟨s, content⟩
    rw [positiveLoop]
    by_cases hlen : limit - 1 ≤ results.length
    · rw [if_pos hlen]
      exact h
    · rw [if_neg hlen]
      have hlt : (results ++ [content]).length ≤ limit - 1 := by
        simp only [List.length_append, List.length_singleton]
        omega
      dsimp only
      cases hlk : List.lookup (if parseField content "Category" = "" then "general"
          else parseField content "Category") seen with
      | some prevOutcome =>
        dsimp only
        split
        · refine ih _ _ ?_
          simp only [List.length_append, List.length_singleton]
          omega
        · exact ih _ _ hlt
      | none =>
        dsimp only
        exact ih _ _ hlt

theorem positiveLoop_nonfailed (limit : ℕ) :
    ∀ (ps : List (ℚ × String)) (results : List String) (seen : List (String × String)),
      (∀ p ∈ ps, parseField p.2 "Outcome" ≠ "failed") →
      (∀ e ∈ results, parseField e "Outcome" ≠ "failed") →
      (∀ kv ∈ seen, '\n' ∉ kv.2.data) →
      ∀ e ∈ positiveLoop limit ps results seen, parseField e "Outcome" ≠ "failed" := by
  intro ps
  induction ps with
  | nil => intro results seen _ hres _; exact hres
  | cons p rest ih =>
    intro results seen hps hres hseen
    rcases p with ⟨s, content⟩
    rw [positiveLoop]
    by_cases hlen : limit - 1 ≤ results.length
    · rw [if_pos hlen]
      exact hres
    · rw [if_neg hlen]
      have hcontent : parseField content "Outcome" ≠ "failed" := hps (s, content) (by simp)
      have hrest : ∀ p ∈ rest, parseField p.2 "Outcome" ≠ "failed" :=
        fun p hp => hps p (by simp [hp])
      have hplain : ∀ e ∈ results ++ [content], parseField e "Outcome" ≠ "failed" := by
        intro e he
        rcases List.mem_append.mp he with h2 | h2
        · exact hres e h2
        · rw [List.mem_singleton.mp h2]
          exact hcontent
      have hcatno : '\n' ∉ (if parseField content "Category" = "" then "general"
          else parseField content "Category").data := by
        split
        · decide
        · exact parseField_no_nl content "Category"
      dsimp only
      cases hlk : List.lookup (if parseField content "Category" = "" then "general"
          else parseField content "Category") seen with
      | some prevOutcome =>
        dsimp only
        split
        · refine ih _ _ hrest ?_ hseen
          intro e he
          rcases List.mem_append.mp he with h2 | h2
          · exact hres e h2
          · rw [List.mem_singleton.mp h2]
            rw [conflict_parse _ _ _ _ hcatno
              (hseen _ (lookup_mem _ _ seen hlk)) (parseField_no_nl content "Outcome")]
            exact hcontent
        · exact ih _ _ hrest hplain hseen
      | none =>
        dsimp only
        refine ih _ _ hrest hplain ?_
        intro kv hkv
        rcases List.mem_append.mp hkv with h2 | h2
        · exact hseen kv h2
        · rw [List.mem_singleton.mp h2]
          exact parseField_no_nl content "Outcome"

theorem sortDesc_single (p : ℚ × String) : sortDesc [p] = [p] :=
  List.perm_singleton.mp (sortDesc_perm [p])

/-- C1: for every query and every limit (a natural number, as in the code's
`limit: int = 3` with the non-negative uses), the fallback path of
`search_experience` returns at most `limit` entries; at most one returned
entry has outcome "failed" (a warning); entries with a non-"failed" outcome
number at most `limit - 1`; every entry except possibly the last has a
non-"failed" outcome; and whenever the sorted warning bucket is nonempty and
`limit ≥ 1`, the final returned entry is the warning banner around the
highest-scoring warning candidate. -/
theorem C1_search_experience (decayFn : ℚ → ℚ) (parseTs : String → Option ℚ) (now : ℚ)
    (table : List Row) (query : String) (limit : ℕ) :
    (searchExperience decayFn parseTs now table query limit).length ≤ limit ∧
    (searchExperience decayFn parseTs now table query limit).countP
      (fun e => parseField e "Outcome" == "failed") ≤ 1 ∧
    (searchExperience decayFn parseTs now table query limit).countP
      (fun e => !(parseField e "Outcome" == "failed")) ≤ limit - 1 ∧
    (∀ e ∈ (searchExperience decayFn parseTs now table query limit).dropLast,
      parseField e "Outcome" ≠ "failed") ∧
    (∀ w ws,
      sortDesc (collectScored decayFn parseTs now
        (fallbackExperienceCandidates table query)).2 = w :: ws → 1 ≤ limit →
      (searchExperience decayFn parseTs now table query limit).getLast?
          = some (warningNote w.2) ∧
      w ∈ (collectScored decayFn parseTs now (fallbackExperienceCandidates table query)).2 ∧
      ∀ p ∈ (collectScored decayFn parseTs now (fallbackExperienceCandidates table query)).2,
        p.1 ≤ w.1) := by
  have hunfold : searchExperience decayFn parseTs now table query limit
      = (match sortDesc (collectScored decayFn parseTs now
            (fallbackExperienceCandidates table query)).2 with
         | [] => positiveLoop limit (sortDesc (collectScored decayFn parseTs now
             (fallbackExperienceCandidates table query)).1) [] []
         | w :: _ => positiveLoop limit (sortDesc (collectScored decayFn parseTs now
             (fallbackExperienceCandidates table query)).1) [] []
             ++ [warningNote w.2]).take limit := rfl
  obtain ⟨hBpos, hBneg⟩ :=
    collectScored_facts decayFn parseTs now (fallbackExperienceCandidates table query)
  rw [hunfold]
  revert hBpos hBneg
  generalize collectScored decayFn parseTs now (fallbackExperienceCandidates table query) = B
  intro hBpos hBneg
  have hPlen : (positiveLoop limit (sortDesc B.1) [] []).length ≤ limit - 1 :=
    positiveLoop_len limit _ [] [] (by simp)
  have hPnf : ∀ e ∈ positiveLoop limit (sortDesc B.1) [] [],
      parseField e "Outcome" ≠ "failed" := by
    refine positiveLoop_nonfailed limit _ [] [] ?_ (by simp) (by simp)
    intro p hp
    exact hBpos p ((sortDesc_perm B.1).subset hp)
  cases hW : sortDesc B.2 with
  | nil =>
    dsimp only
    refine ⟨?_, ?_, ?_, ?_, ?_⟩
    · rw [List.length_take]
      exact min_le_left _ _
    · have h0 : (List.take limit (positiveLoop limit (sortDesc B.1) [] [])).countP
          (fun e => parseField e "Outcome" == "failed") = 0 := by
        rw [List.countP_eq_zero]
        intro e he
        simp only [beq_iff_eq]
        exact hPnf e (List.take_subset limit _ he)
      rw [h0]
      exact Nat.zero_le 1
    · refine le_trans (List.countP_le_length _) (le_trans ?_ hPlen)
      rw [List.length_take]
      exact min_le_right _ _
    · intro e he
      exact hPnf e (List.take_subset limit _ ((List.dropLast_sublist _).subset he))
    · intro w ws heq
      exact absurd heq (by simp)
  | cons w' ws' =>
    dsimp only
    by_cases hlim : 1 ≤ limit
    · have hw'mem : w' ∈ B.2 := by
        refine (sortDesc_perm B.2).subset ?_
        rw [hW]
        exact List.mem_cons_self w' ws'
      have hwfail : parseField w'.2 "Outcome" = "failed" := hBneg w' hw'mem
      have hfw : (parseField (warningNote w'.2) "Outcome" == "failed") = true := by
        rw [warning_parse, hwfail]
        decide
      have hlen1 : (positiveLoop limit (sortDesc B.1) [] []
          ++ [warningNote w'.2]).length ≤ limit := by
        simp only [List.length_append, List.length_singleton]
        omega
      have htake : (positiveLoop limit (sortDesc B.1) [] []
            ++ [warningNote w'.2]).take limit
          = positiveLoop limit (sortDesc B.1) [] [] ++ [warningNote w'.2] :=
        List.take_of_length_le hlen1
      rw [htake]
      refine ⟨hlen1, ?_, ?_, ?_, ?_⟩
      · have h0 : (positiveLoop limit (sortDesc B.1) [] []).countP
            (fun e => parseField e "Outcome" == "failed") = 0 := by
          rw [List.countP_eq_zero]
          intro e he
          simp only [beq_iff_eq]
          exact hPnf e he
        rw [List.countP_append, h0]
        simp [List.countP_cons, hfw]
      · have h2 : ([warningNote w'.2]).countP
            (fun e => !(parseField e "Outcome" == "failed")) = 0 := by
          simp [List.countP_cons, hfw]
        rw [List.countP_append, h2, Nat.add_zero]
        exact le_trans (List.countP_le_length _) hPlen
      · rw [List.dropLast_concat]
        intro e he
        exact hPnf e he
      · intro w ws heq hlim2
        injection heq with h1 h2
        subst h1
        refine ⟨List.getLast?_concat _, hw'mem, ?_⟩
        intro p hp
        have hps : p ∈ sortDesc B.2 := (sortDesc_perm B.2).mem_iff.mpr hp
        rw [hW] at hps
        rcases List.mem_cons.mp hps with rfl | h2
        · exact le_refl _
        · have hsorted := sortDesc_sorted B.2
          rw [hW] at hsorted
          have := (List.pairwise_cons.mp hsorted).1 p h2
          simpa using this
    · have hlim0 : limit = 0 := by omega
      subst hlim0
      rw [List.take_zero]
      refine ⟨by simp, by simp, by simp, by simp, ?_⟩
      intro w ws heq hlim2
      exact absurd hlim2 (by omega)

theorem C1_search_experience_witness :
    (searchExperience (fun _ => 1) (fun _ => none) 0
        [⟨"k1", "task one\n[Outcome] success", "experience", ""⟩,
         ⟨"k2", "task two\n[Outcome] failed", "experience", ""⟩] "" 3).length ≤ 3 ∧
    (searchExperience (fun _ => 1) (fun _ => none) 0
        [⟨"k1", "task one\n[Outcome] success", "experience", ""⟩,
         ⟨"k2", "task two\n[Outcome] failed", "experience", ""⟩] "" 3).getLast?
      = some (warningNote "task two\n[Outcome] failed") := by
  have hB2 : (collectScored (fun _ => (1 : ℚ)) (fun _ => (none : Option ℚ)) 0
        (fallbackExperienceCandidates
          [⟨"k1", "task one\n[Outcome] success", "experience", ""⟩,
           ⟨"k2", "task two\n[Outcome] failed", "experience", ""⟩] "")).2
      = [(scoreOf (fun _ => 1) (fun _ => none) 0
            ⟨"k2", "task two\n[Outcome] failed", "experience", ""⟩,
          "task two\n[Outcome] failed")] := rfl
  have hsort : sortDesc (collectScored (fun _ => (1 : ℚ)) (fun _ => (none : Option ℚ)) 0
        (fallbackExperienceCandidates
          [⟨"k1", "task one\n[Outcome] success", "experience", ""⟩,
           ⟨"k2", "task two\n[Outcome] failed", "experience", ""⟩] "")).2
      = [(scoreOf (fun _ => 1) (fun _ => none) 0
            ⟨"k2", "task two\n[Outcome] failed", "experience", ""⟩,
          "task two\n[Outcome] failed")] := by
    rw [hB2]
    exact sortDesc_single _
  refine ⟨(C1_search_experience (fun _ => 1) (fun _ => none) 0
      [⟨"k1", "task one\n[Outcome] success", "experience", ""⟩,
       ⟨"k2", "task two\n[Outcome] failed", "experience", ""⟩] "" 3).1, ?_⟩
  exact ((C1_search_experience (fun _ => 1) (fun _ => none) 0
      [⟨"k1", "task one\n[Outcome] success", "experience", ""⟩,
       ⟨"k2", "task two\n[Outcome] failed", "experience", ""⟩] "" 3).2.2.2.2
    _ [] hsort (by decide)).1
